import Mathlib

/-!
# Verification of the `build_step` engine (agent_build/tools/build_step.py)

Shallow embedding of the step/graph/caching engine:

* paths are component lists (`FPath := List String`), mirroring `pathlib` path parts;
* file bytes are `List Nat`; the content of the source tree is a map `FPath → List Nat`;
* `sha256` is taken as an abstract parameter `sha : List Nat → Nat`, and the hex
  digest is `natToHex` (lowercase hex of the digest number), mirroring
  `hashlib.sha256(...).hexdigest()`; claims that need collision freeness assume
  `Function.Injective sha` (the standard idealization of a cryptographic hash);
* a step (`BuildStep.__init__` fields) is the inductive `Step`, carrying the
  resolved tracked file paths (`tracked_file_paths`), the additional settings,
  the CI/CD `cacheable` flag, the dependency steps, and the optional base step;
* `json.dumps(info, sort_keys=True, indent=4)` is the concrete printer `dumps`
  over the JSON value type `JVal`; `overall_info` builds its keys in sorted
  order, mirroring `sort_keys=True`.
-/

/-- A filesystem path, as its list of components (the `parts` of a `pathlib`
path, relative to `SOURCE_ROOT`). -/
abbrev FPath := List String

/-- Comparison of paths mirroring `pathlib.PurePath.__lt__`, which compares the
tuples of path components lexicographically (string order on components). -/
def pathLe : FPath → FPath → Bool
  | [], _ => true
  | _ :: _, [] => false
  | x :: xs, y :: ys => if x < y then true else if y < x then false else pathLe xs ys

theorem pathLe_refl (a : FPath) : pathLe a a = true := by
  induction a with
  | nil => rfl
  | cons x xs ih => simp [pathLe, ih]

theorem pathLe_total (a b : FPath) : pathLe a b = true ∨ pathLe b a = true := by
  induction a generalizing b with
  | nil => left; rfl
  | cons x xs ih =>
    cases b with
    | nil => right; rfl
    | cons y ys =>
      rcases lt_trichotomy x y with h | h | h
      · left; simp [pathLe, h]
      · subst h
        rcases ih ys with h2 | h2
        · left; simp [pathLe, h2]
        · right; simp [pathLe, h2]
      · right; simp [pathLe, h]

theorem pathLe_antisymm {a b : FPath} (hab : pathLe a b = true)
    (hba : pathLe b a = true) : a = b := by
  induction a generalizing b with
  | nil =>
    cases b with
    | nil => rfl
    | cons y ys => simp [pathLe] at hba
  | cons x xs ih =>
    cases b with
    | nil => simp [pathLe] at hab
    | cons y ys =>
      rcases lt_trichotomy x y with h | h | h
      · simp [pathLe, h, not_lt_of_lt h] at hba
      · subst h
        simp only [pathLe, lt_irrefl, if_false] at hab hba
        rw [ih hab hba]
      · simp [pathLe, h, not_lt_of_lt h] at hab

theorem pathLe_trans {a b c : FPath} (hab : pathLe a b = true)
    (hbc : pathLe b c = true) : pathLe a c = true := by
  induction a generalizing b c with
  | nil => rfl
  | cons x xs ih =>
    cases b with
    | nil => simp [pathLe] at hab
    | cons y ys =>
      cases c with
      | nil => simp [pathLe] at hbc
      | cons z zs =>
        rcases lt_trichotomy x y with hxy | hxy | hxy
        · rcases lt_trichotomy y z with hyz | hyz | hyz
          · simp [pathLe, lt_trans hxy hyz]
          · subst hyz; simp [pathLe, hxy]
          · simp [pathLe, hyz, not_lt_of_lt hyz] at hbc
        · subst hxy
          rcases lt_trichotomy x z with hyz | hyz | hyz
          · simp [pathLe, hyz]
          · subst hyz
            simp only [pathLe, lt_irrefl, if_false] at hab hbc ⊢
            exact ih hab hbc
          · simp [pathLe, hyz, not_lt_of_lt hyz] at hbc
        · simp [pathLe, hxy, not_lt_of_lt hxy] at hab

/-- The relation used for sorting path lists (`sorted(...)` on `pathlib` paths). -/
def FPathLeR (a b : FPath) : Prop := pathLe a b = true

instance : DecidableRel FPathLeR := fun a b => decEq (pathLe a b) true

instance : IsTotal FPath FPathLeR := ⟨pathLe_total⟩

instance : IsTrans FPath FPathLeR := ⟨fun _ _ _ => pathLe_trans⟩

instance : IsAntisymm FPath FPathLeR := ⟨fun _ _ => pathLe_antisymm⟩

instance : IsRefl FPath FPathLeR := ⟨pathLe_refl⟩

/-- `sorted(files)` on a list of `pathlib` paths. -/
def sortPaths (l : List FPath) : List FPath := List.insertionSort FPathLeR l

theorem sortPaths_sorted (l : List FPath) : List.Sorted FPathLeR (sortPaths l) :=
  List.sorted_insertionSort FPathLeR l

theorem sortPaths_perm (l : List FPath) : List.Perm (sortPaths l) l :=
  List.perm_insertionSort FPathLeR l

theorem sortPaths_idem (l : List FPath) : sortPaths (sortPaths l) = sortPaths l :=
  List.eq_of_perm_of_sorted (sortPaths_perm (sortPaths l))
    (sortPaths_sorted (sortPaths l)) (sortPaths_sorted l)

theorem sortPaths_eq_of_perm {l₁ l₂ : List FPath} (h : List.Perm l₁ l₂) :
    sortPaths l₁ = sortPaths l₂ :=
  List.eq_of_perm_of_sorted ((sortPaths_perm l₁).trans (h.trans (sortPaths_perm l₂).symm))
    (sortPaths_sorted l₁) (sortPaths_sorted l₂)

/-- Hex digit characters, lowercase, as produced by `hexdigest()`. -/
def hexDigitChar (n : Nat) : Char :=
  if n < 10 then Char.ofNat (48 + n) else Char.ofNat (87 + n)

/-- Minimal-width lowercase hex representation of a natural number, modelling
the hex digest string `hashlib.sha256(...).hexdigest()` of an (abstract)
digest value. -/
def toHexChars (n : Nat) : List Char :=
  if _h : n < 16 then [hexDigitChar n]
  else toHexChars (n / 16) ++ [hexDigitChar (n % 16)]
  termination_by n
  decreasing_by
    exact Nat.div_lt_self (Nat.pos_of_ne_zero (by omega)) (by omega)

def natToHex (n : Nat) : String := ⟨toHexChars n⟩

theorem hexDigitChar_inj : ∀ m < 16, ∀ n < 16, hexDigitChar m = hexDigitChar n → m = n := by
  decide

theorem hexDigitChar_toLower : ∀ m < 16, (hexDigitChar m).toLower = hexDigitChar m := by
  decide

theorem toHexChars_small {n : Nat} (h : n < 16) : toHexChars n = [hexDigitChar n] := by
  rw [toHexChars]
  simp [h]

theorem toHexChars_large {n : Nat} (h : ¬ n < 16) :
    toHexChars n = toHexChars (n / 16) ++ [hexDigitChar (n % 16)] := by
  rw [toHexChars]
  simp [h]

theorem toHexChars_ne_nil (n : Nat) : toHexChars n ≠ [] := by
  by_cases h : n < 16
  · rw [toHexChars_small h]; simp
  · rw [toHexChars_large h]; simp

theorem toHexChars_two_le {n : Nat} (h : ¬ n < 16) : 2 ≤ (toHexChars n).length := by
  rw [toHexChars_large h]
  have hne := toHexChars_ne_nil (n / 16)
  cases hh : toHexChars (n / 16) with
  | nil => exact absurd hh hne
  | cons a l => simp

theorem toHexChars_inj : ∀ {m n : Nat}, toHexChars m = toHexChars n → m = n := by
  intro m
  induction m using Nat.strong_induction_on with
  | _ m ih =>
    intro n h
    by_cases hm : m < 16 <;> by_cases hn : n < 16
    · rw [toHexChars_small hm, toHexChars_small hn] at h
      exact hexDigitChar_inj m hm n hn (List.cons_eq_cons.mp h).1
    · have := toHexChars_two_le hn
      rw [toHexChars_small hm] at h
      rw [← h] at this
      simp at this
    · have := toHexChars_two_le hm
      rw [toHexChars_small hn] at h
      rw [h] at this
      simp at this
    · rw [toHexChars_large hm, toHexChars_large hn] at h
      have hlen : (toHexChars (m / 16)).length = (toHexChars (n / 16)).length := by
        have := congrArg List.length h
        simp at this
        omega
      have hdiv : m / 16 = n / 16 :=
        ih (m / 16) (Nat.div_lt_self (by omega) (by omega)) (List.append_inj_left h hlen)
      have htl := List.append_inj_right h hlen
      have hmod : m % 16 = n % 16 :=
        hexDigitChar_inj _ (Nat.mod_lt _ (by omega)) _ (Nat.mod_lt _ (by omega))
          (List.cons_eq_cons.mp htl).1
      omega

theorem natToHex_inj : Function.Injective natToHex := by
  intro m n h
  exact toHexChars_inj (congrArg String.data h)

theorem toHexChars_toLower (n : Nat) : (toHexChars n).map Char.toLower = toHexChars n := by
  induction n using Nat.strong_induction_on with
  | _ n ih =>
    by_cases h : n < 16
    · rw [toHexChars_small h]; simp [hexDigitChar_toLower n h]
    · rw [toHexChars_large h]
      simp only [List.map_append, List.map_cons, List.map_nil]
      rw [ih (n / 16) (Nat.div_lt_self (by omega) (by omega))]
      rw [hexDigitChar_toLower (n % 16) (Nat.mod_lt _ (by omega))]

/-- Python `str.lower()` (character-wise lowercasing). -/
def pyLower (s : String) : String := ⟨s.data.map Char.toLower⟩

/-- The byte stream of a string (`str.encode()`), as character code points
(faithful for the ASCII names, paths and digests fed to the hashes here). -/
def strBytes (s : String) : List Nat := s.data.map Char.toNat

theorem char_toNat_inj : Function.Injective Char.toNat := by
  intro a b h
  exact Char.eq_of_val_eq (UInt32.eq_of_toBitVec_eq (BitVec.eq_of_toNat_eq h))

theorem strBytes_inj : Function.Injective strBytes := by
  intro a b h
  have : a.data = b.data := List.map_injective_iff.mpr char_toNat_inj h
  cases a; cases b; simp_all

/-- A concrete injective stand-in digest function, used by the witnesses to
discharge the `Function.Injective sha` idealization. -/
def encodeBytes : List Nat → Nat
  | [] => 0
  | a :: l => Nat.pair a (encodeBytes l) + 1

theorem encodeBytes_inj : Function.Injective encodeBytes := by
  intro a
  induction a with
  | nil =>
    intro b h
    cases b with
    | nil => rfl
    | cons x l => simp [encodeBytes] at h
  | cons x l ih =>
    intro b h
    cases b with
    | nil => simp [encodeBytes] at h
    | cons y m =>
      simp only [encodeBytes, Nat.add_right_cancel_iff] at h
      have := Nat.pair_eq_pair.mp h
      rw [this.1, ih this.2]

/-- `str(file_path)` of a relative path, with the POSIX separator. -/
def pathStr (p : FPath) : String := String.intercalate "/" p

/-!
## `calculate_files_checksum` (build_step.py lines 52-65)

The `sha256` object is modelled by the byte stream accumulated by its
`update` calls; `hexdigest()` is `natToHex (sha stream)` for the abstract
digest function `sha`.
-/

/-- `calculate_files_checksum(files)`: sorts the list, then for each path of
the (re-)sorted list feeds `str(file_path).encode()` and then the file's
bytes to the running hash, and returns the hex digest. -/
def calculate_files_checksum (sha : List Nat → Nat) (w : FPath → List Nat)
    (files : List FPath) : String :=
  natToHex (sha ((sortPaths (sortPaths files)).foldl
    (fun acc p => acc ++ strBytes (pathStr p) ++ w p) []))

/-- The checksum as the spec words it: one digest over, for each path in
sorted order, `(relative-path-string bytes) || (file bytes)`. -/
def spec_files_checksum (sha : List Nat → Nat) (w : FPath → List Nat)
    (files : List FPath) : String :=
  natToHex (sha (((sortPaths files).map (fun p => strBytes (pathStr p) ++ w p)).flatten))

theorem foldl_append_eq_flatten {α β : Type} (f g : α → List β) :
    ∀ (l : List α) (acc : List β),
      l.foldl (fun a p => a ++ f p ++ g p) acc = acc ++ (l.map (fun p => f p ++ g p)).flatten := by
  intro l
  induction l with
  | nil => simp
  | cons x xs ih =>
    intro acc
    simp only [List.foldl_cons, List.map_cons, List.flatten_cons]
    rw [ih]
    simp [List.append_assoc]

/-- C8: `calculate_files_checksum` equals the sha digest obtained by
processing the paths in sorted order and, for each path, feeding first the
bytes of the relative path string and then the bytes of the file's content
into the digest. -/
theorem calculate_files_checksum_eq_spec (sha : List Nat → Nat)
    (w : FPath → List Nat) (files : List FPath) :
    calculate_files_checksum sha w files = spec_files_checksum sha w files := by
  unfold calculate_files_checksum spec_files_checksum
  rw [sortPaths_idem]
  rw [foldl_append_eq_flatten (fun p => strBytes (pathStr p)) w (sortPaths files) []]
  simp

/-!
## The step graph (`BuildStep.__init__`, build_step.py lines 93-137)

A `Step` carries the constructor data of a `BuildStep`: its `name`, its
resolved tracked file paths (the value of the `tracked_file_paths` property),
its `additional_settings` (dict modelled as an association list), the
`ci_cd_settings.cacheable` flag, its `dependency_steps` and its optional
`_base_step`.  The inductive structure makes every step graph finite and
acyclic, matching the DAG requirement; a step shared by several branches
appears as the same subterm along each path.
-/

inductive Step where
  | mk (name : String) (tracked : List FPath) (settings : List (String × String))
       (cacheable : Bool) (deps : List Step) (base : Option Step)

def Step.name : Step → String
  | .mk n _ _ _ _ _ => n

def Step.tracked : Step → List FPath
  | .mk _ tr _ _ _ _ => tr

def Step.settings : Step → List (String × String)
  | .mk _ _ se _ _ _ => se

def Step.cacheable : Step → Bool
  | .mk _ _ _ ca _ _ => ca

def Step.deps : Step → List Step
  | .mk _ _ _ _ ds _ => ds

def Step.base : Step → Option Step
  | .mk _ _ _ _ _ b => b

/-- Strong induction over the step graph: to prove `P` for a step it is
enough to prove it assuming it for all dependency steps and the base step. -/
theorem Step.strongInd (P : Step → Prop)
    (h : ∀ n tr se ca deps base,
      (∀ d ∈ deps, P d) → (∀ b, base = some b → P b) →
      P (Step.mk n tr se ca deps base)) : ∀ s, P s
  | .mk n tr se ca deps base =>
    h n tr se ca deps base
      (fun d hd => Step.strongInd P h d)
      (fun b hb => Step.strongInd P h b)
termination_by s => sizeOf s
decreasing_by
  · have := List.sizeOf_lt_of_mem hd
    simp
    omega
  · subst hb
    simp
    omega

/-- All steps reachable from a step through `dependency_steps`/`_base_step`
edges, the step itself included. -/
def allSubs : Step → List Step
  | .mk n tr se ca deps base =>
    Step.mk n tr se ca deps base
    :: ((deps.attach.map (fun d => allSubs d.1)).flatten
        ++ (match base with
            | some b => allSubs b
            | none => []))
termination_by s => sizeOf s
decreasing_by
  · have := List.sizeOf_lt_of_mem d.2
    simp
    omega
  · simp
    omega

theorem attach_map_fst {α β : Type} (l : List α) (f : α → β) :
    l.attach.map (fun x => f x.1) = l.map f := by
  induction l with
  | nil => rfl
  | cons a as ih => simp [ih]

theorem allSubs_eq (n : String) (tr : List FPath) (se : List (String × String))
    (ca : Bool) (deps : List Step) (base : Option Step) :
    allSubs (.mk n tr se ca deps base) =
      Step.mk n tr se ca deps base
      :: ((deps.map allSubs).flatten
          ++ (match base with
              | some b => allSubs b
              | none => [])) := by
  conv_lhs => rw [allSubs.eq_def]
  dsimp only
  rw [attach_map_fst]

theorem mem_allSubs_iff (t : Step) (n : String) (tr : List FPath)
    (se : List (String × String)) (ca : Bool) (deps : List Step) (base : Option Step) :
    t ∈ allSubs (.mk n tr se ca deps base) ↔
      t = Step.mk n tr se ca deps base ∨ (∃ d ∈ deps, t ∈ allSubs d) ∨
        (∃ b, base = some b ∧ t ∈ allSubs b) := by
  rw [allSubs_eq]
  cases base with
  | none => simp
  | some b => simp

theorem self_mem_allSubs (s : Step) : s ∈ allSubs s := by
  cases s with
  | mk n tr se ca deps base => rw [mem_allSubs_iff]; left; rfl

theorem allSubs_trans : ∀ s, ∀ t ∈ allSubs s, ∀ u ∈ allSubs t, u ∈ allSubs s := by
  intro s
  induction s using Step.strongInd with
  | _ n tr se ca deps base ihd ihb =>
    intro t ht u hu
    rw [mem_allSubs_iff] at ht ⊢
    rcases ht with rfl | ⟨d, hd, htd⟩ | ⟨b, hb, htb⟩
    · rw [mem_allSubs_iff] at hu
      exact hu
    · exact Or.inr (Or.inl ⟨d, hd, ihd d hd t htd u hu⟩)
    · exact Or.inr (Or.inr ⟨b, hb, ihb b hb t htb u hu⟩)

/-!
## `all_used_cacheable_steps` (build_step.py lines 270-298)

Dependency closures first, then the base step's closure, then the step
itself when its `ci_cd_settings.cacheable` flag is set — plain list
concatenation, exactly as the `result_steps.extend(...)` loop does.
-/

def all_used_cacheable_steps : Step → List Step
  | .mk n tr se ca deps base =>
    (deps.attach.map (fun d => all_used_cacheable_steps d.1)).flatten
    ++ (match base with
        | some b => all_used_cacheable_steps b
        | none => [])
    ++ (if ca then [Step.mk n tr se ca deps base] else [])
termination_by s => sizeOf s
decreasing_by
  · have := List.sizeOf_lt_of_mem d.2
    simp
    omega
  · simp
    omega

theorem all_used_cacheable_steps_eq (n : String) (tr : List FPath)
    (se : List (String × String)) (ca : Bool) (deps : List Step) (base : Option Step) :
    all_used_cacheable_steps (.mk n tr se ca deps base) =
      (deps.map all_used_cacheable_steps).flatten
      ++ (match base with
          | some b => all_used_cacheable_steps b
          | none => [])
      ++ (if ca then [Step.mk n tr se ca deps base] else []) := by
  conv_lhs => rw [all_used_cacheable_steps.eq_def]
  dsimp only
  rw [attach_map_fst]

/-- `all_used_cached_step_ids` maps an id function over the closure list. -/
def all_used_cached_step_ids (ident : Step → String) (s : Step) : List String :=
  (all_used_cacheable_steps s).map ident

/-- The shared diamond graph: `diamondD` is cacheable and is a dependency of
both `diamondA` and `diamondB`, which are both dependencies of `diamondC`. -/
def diamondD : Step := .mk "d" [] [] true [] none

def diamondA : Step := .mk "a" [] [] false [diamondD] none

def diamondB : Step := .mk "b" [] [] false [diamondD] none

def diamondC : Step := .mk "c" [] [] false [diamondA, diamondB] none

theorem all_used_cacheable_steps_diamond :
    all_used_cacheable_steps diamondC = [diamondD, diamondD] := by
  simp [diamondC, diamondA, diamondB, diamondD, all_used_cacheable_steps]

/-- C2 counterexample: for the diamond graph the cacheable-closure list of
`diamondC` is `[diamondD, diamondD]` — the shared cacheable step appears
once per dependency path, so the list does contain duplicates. -/
theorem all_used_cacheable_steps_not_nodup :
    ¬ (all_used_cacheable_steps diamondC).Nodup := by
  rw [all_used_cacheable_steps_diamond]
  simp

/-- C2 amended: the closure list enumerates exactly the reachable cacheable
steps — its members are precisely the steps reachable through
dependency/base edges whose `cacheable` flag is set — but it is a plain
concatenation and may repeat a step shared by several branches. -/
theorem mem_all_used_cacheable_steps (s t : Step) :
    t ∈ all_used_cacheable_steps s ↔ t ∈ allSubs s ∧ t.cacheable = true := by
  induction s using Step.strongInd with
  | _ n tr se ca deps base ihd ihb =>
    rw [all_used_cacheable_steps_eq]
    rw [mem_allSubs_iff]
    constructor
    · intro h
      rcases List.mem_append.mp h with h1 | hself
      · rcases List.mem_append.mp h1 with hdep | hbase
        · rcases List.mem_flatten.mp hdep with ⟨l, hl, htl⟩
          rcases List.mem_map.mp hl with ⟨d, hd, rfl⟩
          have := (ihd d hd).mp htl
          exact ⟨Or.inr (Or.inl ⟨d, hd, this.1⟩), this.2⟩
        · cases hb : base with
          | none => rw [hb] at hbase; simp at hbase
          | some b =>
            rw [hb] at hbase
            have := (ihb b hb).mp hbase
            exact ⟨Or.inr (Or.inr ⟨b, rfl, this.1⟩), this.2⟩
      · by_cases hca : ca
        · rw [if_pos hca] at hself
          rcases List.mem_singleton.mp hself with rfl
          exact ⟨Or.inl rfl, by simp [Step.cacheable, hca]⟩
        · rw [if_neg hca] at hself
          simp at hself
    · rintro ⟨hmem, hca⟩
      rcases hmem with rfl | ⟨d, hd, htd⟩ | ⟨b, hb, htb⟩
      · apply List.mem_append.mpr
        right
        have : ca = true := hca
        rw [this]
        simp
      · apply List.mem_append.mpr
        left
        apply List.mem_append.mpr
        left
        exact List.mem_flatten.mpr ⟨all_used_cacheable_steps d,
          List.mem_map.mpr ⟨d, hd, rfl⟩, (ihd d hd).mpr ⟨htd, hca⟩⟩
      · apply List.mem_append.mpr
        left
        apply List.mem_append.mpr
        right
        rw [hb]
        exact (ihb b hb).mpr ⟨htb, hca⟩

/-!
## Canonical JSON serialization (`overall_info_str`, build_step.py lines 239-245)

`json.dumps(self.overall_info, sort_keys=True, indent=4)`.  `JVal` is the
JSON value type reachable from `overall_info`; `dumps` reproduces the
`json.dumps` text layout for `indent=4` (`ensure_ascii` escaping included),
and `overall_info` lists its keys in sorted order, which together with the
key-sorted `additional_settings` object realizes `sort_keys=True`.
-/

inductive JVal where
  | jnull
  | jstr (s : String)
  | jarr (xs : List JVal)
  | jobj (kvs : List (String × JVal))

def hex4 (n : Nat) : List Char :=
  [hexDigitChar (n / 4096 % 16), hexDigitChar (n / 256 % 16),
   hexDigitChar (n / 16 % 16), hexDigitChar (n % 16)]

/-- `json.dumps` escaping of a single character (`ensure_ascii=True`). -/
def escChar (c : Char) : List Char :=
  if c.toNat = 34 then ['\\', '"']
  else if c.toNat = 92 then ['\\', '\\']
  else if c.toNat = 8 then ['\\', 'b']
  else if c.toNat = 9 then ['\\', 't']
  else if c.toNat = 10 then ['\\', 'n']
  else if c.toNat = 12 then ['\\', 'f']
  else if c.toNat = 13 then ['\\', 'r']
  else if c.toNat < 32 ∨ 126 < c.toNat then
    if c.toNat < 65536 then '\\' :: 'u' :: hex4 c.toNat
    else ('\\' :: 'u' :: hex4 (55296 + (c.toNat - 65536) / 1024))
         ++ ('\\' :: 'u' :: hex4 (56320 + (c.toNat - 65536) % 1024))
  else [c]

def escStr (s : String) : String := ⟨(s.data.map escChar).flatten⟩

/-- Characters that `json.dumps` emits verbatim. -/
def plainChar (c : Char) : Bool :=
  decide (32 ≤ c.toNat ∧ c.toNat ≤ 126 ∧ c.toNat ≠ 34 ∧ c.toNat ≠ 92)

theorem escChar_plain {c : Char} (h : plainChar c = true) : escChar c = [c] := by
  simp only [plainChar, decide_eq_true_eq] at h
  obtain ⟨h1, h2, h3, h4⟩ := h
  unfold escChar
  rw [if_neg h3, if_neg h4, if_neg (by omega), if_neg (by omega), if_neg (by omega),
    if_neg (by omega), if_neg (by omega), if_neg (by omega)]

theorem escStr_plain {s : String} (h : ∀ c ∈ s.data, plainChar c = true) :
    escStr s = s := by
  unfold escStr
  cases s with
  | mk l =>
    simp only
    congr 1
    induction l with
    | nil => rfl
    | cons c cs ih =>
      simp only [List.map_cons, List.flatten_cons]
      rw [escChar_plain (h c (by simp))]
      rw [ih (fun x hx => h x (by simp [hx]))]
      rfl

theorem hexDigitChar_plain : ∀ m < 16, plainChar (hexDigitChar m) = true := by
  decide

theorem toHexChars_plain (n : Nat) : ∀ c ∈ toHexChars n, plainChar c = true := by
  induction n using Nat.strong_induction_on with
  | _ n ih =>
    by_cases h : n < 16
    · rw [toHexChars_small h]
      intro c hc
      rcases List.mem_singleton.mp hc with rfl
      exact hexDigitChar_plain n h
    · rw [toHexChars_large h]
      intro c hc
      rcases List.mem_append.mp hc with hc | hc
      · exact ih (n / 16) (Nat.div_lt_self (by omega) (by omega)) c hc
      · rcases List.mem_singleton.mp hc with rfl
        exact hexDigitChar_plain _ (Nat.mod_lt _ (by omega))

theorem escStr_natToHex (n : Nat) : escStr (natToHex n) = natToHex n :=
  escStr_plain (toHexChars_plain n)

def indentStr (d : Nat) : String := ⟨List.replicate (4 * d) ' '⟩

mutual

def dumps (d : Nat) : JVal → String
  | .jnull => "null"
  | .jstr s => "\"" ++ escStr s ++ "\""
  | .jarr [] => "[]"
  | .jarr (x :: xs) => "[\n" ++ dumpsItems (d + 1) x xs ++ "\n" ++ indentStr d ++ "]"
  | .jobj [] => "\x7b\x7d"
  | .jobj (e :: es) => "\x7b\n" ++ dumpsEntries (d + 1) e es ++ "\n" ++ indentStr d ++ "\x7d"
termination_by v => sizeOf v

def dumpsItems (d : Nat) (x : JVal) : List JVal → String
  | [] => indentStr d ++ dumps d x
  | y :: ys => indentStr d ++ dumps d x ++ ",\n" ++ dumpsItems d y ys
termination_by ys => sizeOf x + sizeOf ys

def dumpsEntries (d : Nat) (e : String × JVal) : List (String × JVal) → String
  | [] => indentStr d ++ "\"" ++ escStr e.1 ++ "\": " ++ dumps d e.2
  | f :: fs =>
      indentStr d ++ "\"" ++ escStr e.1 ++ "\": " ++ dumps d e.2 ++ ",\n"
      ++ dumpsEntries d f fs
termination_by fs => sizeOf e + sizeOf fs
decreasing_by
  all_goals obtain ⟨k, v⟩ := e
  all_goals simp
  all_goals try omega

end

/-!
## `overall_info` and `id` (build_step.py lines 208-268)

`_init_overall_info` collects `name`, `used_files`, `files_checksum`,
`dependency_steps` (the dependency steps' overall infos), `base_step` and
`additional_settings`.  The keys of the object are listed here in their
`sort_keys=True` order, and the settings dict is likewise key-sorted.
-/

def keyLeR (a b : String × JVal) : Prop := a.1 ≤ b.1

instance : DecidableRel keyLeR := fun a b => inferInstanceAs (Decidable (a.1 ≤ b.1))

def settingLeR (a b : String × String) : Prop := a.1 ≤ b.1

instance : DecidableRel settingLeR := fun a b => inferInstanceAs (Decidable (a.1 ≤ b.1))

/-- The `additional_settings` dict under `sort_keys=True`: entries sorted by key. -/
def sortSettings (se : List (String × String)) : List (String × String) :=
  List.insertionSort settingLeR se

def overall_info (sha : List Nat → Nat) (w : FPath → List Nat) : Step → JVal
  | .mk n tr se _ca deps base =>
    .jobj
      [("additional_settings",
         .jobj ((sortSettings se).map (fun kv => (kv.1, JVal.jstr kv.2)))),
       ("base_step",
         match base with
         | some b => overall_info sha w b
         | none => .jnull),
       ("dependency_steps", .jarr (deps.attach.map (fun d => overall_info sha w d.1))),
       ("files_checksum", .jstr (calculate_files_checksum sha w tr)),
       ("name", .jstr n),
       ("used_files", .jarr (tr.map (fun p => .jstr (pathStr p))))]
termination_by s => sizeOf s
decreasing_by
  · simp
    omega
  · have := List.sizeOf_lt_of_mem d.2
    simp
    omega

/-- `base_step`: the base step's overall info, or JSON `null` when there is
no base step. -/
def baseInfo (sha : List Nat → Nat) (w : FPath → List Nat) : Option Step → JVal
  | some b => overall_info sha w b
  | none => .jnull

theorem baseInfo_none (sha : List Nat → Nat) (w : FPath → List Nat) :
    baseInfo sha w none = JVal.jnull := rfl

theorem baseInfo_some (sha : List Nat → Nat) (w : FPath → List Nat) (b : Step) :
    baseInfo sha w (some b) = overall_info sha w b := rfl

theorem overall_info_eq (sha : List Nat → Nat) (w : FPath → List Nat)
    (n : String) (tr : List FPath) (se : List (String × String)) (ca : Bool)
    (deps : List Step) (base : Option Step) :
    overall_info sha w (.mk n tr se ca deps base) =
      .jobj
        [("additional_settings",
           .jobj ((sortSettings se).map (fun kv => (kv.1, JVal.jstr kv.2)))),
         ("base_step", baseInfo sha w base),
         ("dependency_steps", .jarr (deps.map (overall_info sha w))),
         ("files_checksum", .jstr (calculate_files_checksum sha w tr)),
         ("name", .jstr n),
         ("used_files", .jarr (tr.map (fun p => .jstr (pathStr p))))] := by
  conv_lhs => rw [overall_info.eq_def]
  dsimp only
  rw [attach_map_fst]
  cases base with
  | none => rfl
  | some b => rfl

/-- `overall_info_str`: `json.dumps(self.overall_info, sort_keys=True, indent=4)`. -/
def overall_info_str (sha : List Nat → Nat) (w : FPath → List Nat) (s : Step) : String :=
  dumps 0 (overall_info sha w s)

/-- `BuildStep.id`: hex digest of `overall_info_str`, then
`f"{self.name}__{checksum}".lower()`. -/
def step_id (sha : List Nat → Nat) (w : FPath → List Nat) (s : Step) : String :=
  pyLower (s.name ++ "__" ++ natToHex (sha (strBytes (overall_info_str sha w s))))

/-- The identity as the spec words it: `lowercase(name) + "__" + hex(digest)`. -/
def spec_step_id (sha : List Nat → Nat) (w : FPath → List Nat) (s : Step) : String :=
  pyLower s.name ++ "__" ++ natToHex (sha (strBytes (overall_info_str sha w s)))

theorem pyLower_append (a b : String) : pyLower (a ++ b) = pyLower a ++ pyLower b := by
  unfold pyLower
  have h : (a ++ b).data = a.data ++ b.data := rfl
  rw [h, List.map_append]
  rfl

theorem pyLower_natToHex (n : Nat) : pyLower (natToHex n) = natToHex n := by
  unfold pyLower natToHex
  simp [toHexChars_toLower]

/-- Lowercasing distributes over the three parts of the identity and fixes
the separator and the already-lowercase hex digest. -/
theorem step_id_eq_spec_step_id (sha : List Nat → Nat) (w : FPath → List Nat)
    (s : Step) : step_id sha w s = spec_step_id sha w s := by
  unfold step_id spec_step_id
  rw [pyLower_append, pyLower_append, pyLower_natToHex]
  have h : pyLower "__" = "__" := by decide
  rw [h]

/-!
### Determinism of the identity

The identity only looks at the file contents of the tracked paths of the
steps in the graph; two content assignments that agree there produce the
same `overall_info` and hence the byte-identical id string.
-/

theorem calculate_files_checksum_congr (sha : List Nat → Nat)
    {w w' : FPath → List Nat} (files : List FPath)
    (h : ∀ p ∈ files, w p = w' p) :
    calculate_files_checksum sha w files = calculate_files_checksum sha w' files := by
  unfold calculate_files_checksum
  rw [foldl_append_eq_flatten (fun p => strBytes (pathStr p)) w _ []]
  rw [foldl_append_eq_flatten (fun p => strBytes (pathStr p)) w' _ []]
  have hmem : ∀ p ∈ sortPaths (sortPaths files), w p = w' p := by
    intro p hp
    exact h p ((sortPaths_perm files).mem_iff.mp
      ((sortPaths_perm (sortPaths files)).mem_iff.mp hp))
  have hmap : (sortPaths (sortPaths files)).map (fun p => strBytes (pathStr p) ++ w p)
      = (sortPaths (sortPaths files)).map (fun p => strBytes (pathStr p) ++ w' p) :=
    List.map_congr_left (fun p hp => by rw [hmem p hp])
  rw [hmap]

theorem overall_info_congr (sha : List Nat → Nat) (w w' : FPath → List Nat) :
    ∀ s, (∀ t ∈ allSubs s, ∀ p ∈ t.tracked, w p = w' p) →
      overall_info sha w s = overall_info sha w' s := by
  intro s
  induction s using Step.strongInd with
  | _ n tr se ca deps base ihd ihb =>
    intro h
    have hself : ∀ p ∈ tr, w p = w' p := by
      intro p hp
      exact h _ (self_mem_allSubs _) p hp
    have hdeps : ∀ d ∈ deps, overall_info sha w d = overall_info sha w' d := by
      intro d hd
      apply ihd d hd
      intro t ht p hp
      refine h t ?_ p hp
      rw [mem_allSubs_iff]
      exact Or.inr (Or.inl ⟨d, hd, ht⟩)
    cases hb : base with
    | none =>
      rw [overall_info_eq, overall_info_eq]
      rw [baseInfo_none, baseInfo_none]
      rw [List.map_congr_left hdeps, calculate_files_checksum_congr sha tr hself]
    | some b =>
      rw [overall_info_eq, overall_info_eq]
      rw [baseInfo_some, baseInfo_some]
      have hbb := ihb b hb (by
        intro t ht p hp
        refine h t ?_ p hp
        rw [mem_allSubs_iff]
        exact Or.inr (Or.inr ⟨b, hb, ht⟩))
      rw [List.map_congr_left hdeps, calculate_files_checksum_congr sha tr hself, hbb]

/-- C1: the computed identity equals `lowercase(name) + "__" + hex digest of
the canonical (key-sorted) JSON serialization of the overall info`, and for
fixed tracked-file bytes (and the structurally fixed paths, settings and
upstream steps) the id string is byte-identical across computations. -/
theorem step_id_spec (sha : List Nat → Nat) (w w' : FPath → List Nat) (s : Step)
    (h : ∀ t ∈ allSubs s, ∀ p ∈ t.tracked, w p = w' p) :
    step_id sha w s
      = pyLower s.name ++ "__" ++ natToHex (sha (strBytes (dumps 0 (overall_info sha w s))))
    ∧ step_id sha w s = step_id sha w' s := by
  constructor
  · exact step_id_eq_spec_step_id sha w s
  · unfold step_id overall_info_str
    rw [overall_info_congr sha w w' s h]

/-- C1 witness: a two-step graph with concrete contents; the hypothesis is
discharged with the two content maps literally equal on the tracked paths. -/
theorem step_id_spec_witness :
    step_id encodeBytes (fun _ => [1])
        (Step.mk "A" [["x.txt"]] [] true [] none)
      = pyLower (Step.mk "A" [["x.txt"]] [] true [] none).name ++ "__"
        ++ natToHex (encodeBytes (strBytes (dumps 0 (overall_info encodeBytes
            (fun _ => [1]) (Step.mk "A" [["x.txt"]] [] true [] none)))))
    ∧ step_id encodeBytes (fun _ => [1]) (Step.mk "A" [["x.txt"]] [] true [] none)
      = step_id encodeBytes (fun p => if p = ["x.txt"] then [1] else [1])
          (Step.mk "A" [["x.txt"]] [] true [] none) :=
  step_id_spec encodeBytes (fun _ => [1]) (fun p => if p = ["x.txt"] then [1] else [1])
    (Step.mk "A" [["x.txt"]] [] true [] none)
    (by intro t ht p hp; simp)

/-!
## Sensitivity of the identity (C9)

Changing the bytes of a file tracked by an upstream step changes that step's
`overall_info`/fingerprint, and the change propagates through the
`dependency_steps`/`base_step` entries of every downstream `overall_info`
into the downstream identity, while steps that do not (transitively) track
the file keep a byte-identical identity.
-/

/-- Some step reachable from `s` tracks the file `x`. -/
def TracksIn (x : FPath) (s : Step) : Prop := ∃ t ∈ allSubs s, x ∈ t.tracked

/-- A step that does not transitively track `x` has the same `overall_info`
under two content maps that agree away from `x`. -/
theorem overall_info_eq_of_not_tracks (sha : List Nat → Nat)
    {w₁ w₂ : FPath → List Nat} {x : FPath}
    (hagree : ∀ p, p ≠ x → w₁ p = w₂ p) {s : Step} (hs : ¬ TracksIn x s) :
    overall_info sha w₁ s = overall_info sha w₂ s := by
  apply overall_info_congr
  intro t ht p hp
  apply hagree
  intro hpx
  exact hs ⟨t, ht, hpx ▸ hp⟩

/-- The byte stream hashed by `calculate_files_checksum`. -/
def streamOf (w : FPath → List Nat) (tr : List FPath) : List Nat :=
  ((sortPaths tr).map (fun p => strBytes (pathStr p) ++ w p)).flatten

theorem calculate_files_checksum_eq_stream (sha : List Nat → Nat)
    (w : FPath → List Nat) (tr : List FPath) :
    calculate_files_checksum sha w tr = natToHex (sha (streamOf w tr)) := by
  unfold calculate_files_checksum streamOf
  rw [sortPaths_idem]
  rw [foldl_append_eq_flatten (fun p => strBytes (pathStr p)) w (sortPaths tr) []]
  rfl

/-- Middle cancellation for list concatenation. -/
theorem append_mid_cancel {α : Type} {P Q a b : List α}
    (h : P ++ a ++ Q = P ++ b ++ Q) : a = b := by
  rw [List.append_assoc, List.append_assoc] at h
  have h1 := List.append_cancel_left h
  exact List.append_cancel_right h1

/-- If `x` is among the (duplicate-free) tracked paths, the hashed byte
stream splits around the content of `x`, with surroundings that only depend
on the other files. -/
theorem stream_factor {x : FPath} {tr : List FPath} (hx : x ∈ tr)
    (hnd : tr.Nodup) {w₁ w₂ : FPath → List Nat}
    (hagree : ∀ p, p ≠ x → w₁ p = w₂ p) :
    ∃ P Q : List Nat,
      streamOf w₁ tr = P ++ w₁ x ++ Q ∧ streamOf w₂ tr = P ++ w₂ x ++ Q := by
  have hxl : x ∈ sortPaths tr := (sortPaths_perm tr).mem_iff.mpr hx
  have hndl : (sortPaths tr).Nodup := (sortPaths_perm tr).nodup_iff.mpr hnd
  obtain ⟨l₁, l₂, hl⟩ := List.append_of_mem hxl
  rw [hl] at hndl
  rw [List.nodup_append] at hndl
  obtain ⟨hnd1, hnd2, hdisj⟩ := hndl
  have hx1 : x ∉ l₁ := fun hmem => (hdisj hmem (by simp)).elim
  have hx2 : x ∉ l₂ := by
    have := List.nodup_cons.mp hnd2
    exact this.1
  have hmap1 : l₁.map (fun p => strBytes (pathStr p) ++ w₁ p)
      = l₁.map (fun p => strBytes (pathStr p) ++ w₂ p) :=
    List.map_congr_left (fun p hp => by
      rw [hagree p (fun hpx => hx1 (hpx ▸ hp))])
  have hmap2 : l₂.map (fun p => strBytes (pathStr p) ++ w₁ p)
      = l₂.map (fun p => strBytes (pathStr p) ++ w₂ p) :=
    List.map_congr_left (fun p hp => by
      rw [hagree p (fun hpx => hx2 (hpx ▸ hp))])
  refine ⟨(l₁.map (fun p => strBytes (pathStr p) ++ w₁ p)).flatten ++ strBytes (pathStr x),
    (l₂.map (fun p => strBytes (pathStr p) ++ w₁ p)).flatten, ?_, ?_⟩
  · unfold streamOf
    rw [hl]
    simp [List.append_assoc]
  · unfold streamOf
    rw [hl]
    rw [List.map_append, List.map_cons, ← hmap1, ← hmap2]
    simp [List.append_assoc]

/-- Under an injective digest, changing the bytes of a tracked file changes
the files checksum of a step that tracks it. -/
theorem checksum_ne_of_tracked {sha : List Nat → Nat}
    (hsha : Function.Injective sha) {x : FPath} {tr : List FPath}
    (hx : x ∈ tr) (hnd : tr.Nodup) {w₁ w₂ : FPath → List Nat}
    (hagree : ∀ p, p ≠ x → w₁ p = w₂ p) (hdiff : w₁ x ≠ w₂ x) :
    calculate_files_checksum sha w₁ tr ≠ calculate_files_checksum sha w₂ tr := by
  intro heq
  rw [calculate_files_checksum_eq_stream, calculate_files_checksum_eq_stream] at heq
  have hsh := natToHex_inj heq
  have hstream := hsha hsh
  obtain ⟨P, Q, h1, h2⟩ := stream_factor hx hnd hagree
  rw [h1, h2] at hstream
  exact hdiff (append_mid_cancel hstream)

/-!
### Factoring the printed JSON around one varying sub-value

`dumps` of an object or array whose entries are fixed except for one
position is a fixed prefix, the printed sub-value, and a fixed suffix.
-/

def entryRender (d : Nat) (e : String × JVal) : String :=
  indentStr d ++ "\"" ++ escStr e.1 ++ "\": " ++ dumps d e.2

def itemRender (d : Nat) (x : JVal) : String :=
  indentStr d ++ dumps d x

def dumpsObjBody (d : Nat) : List (String × JVal) → String
  | [] => ""
  | e :: es => dumpsEntries d e es

def dumpsArrBody (d : Nat) : List JVal → String
  | [] => ""
  | x :: xs => dumpsItems d x xs

theorem dumps_jstr (d : Nat) (s : String) :
    dumps d (.jstr s) = "\"" ++ escStr s ++ "\"" := by
  rw [dumps]

theorem dumpsEntries_nil (d : Nat) (e : String × JVal) :
    dumpsEntries d e [] = entryRender d e := by
  rw [dumpsEntries]
  rfl

theorem dumpsEntries_cons (d : Nat) (e f : String × JVal) (fs : List (String × JVal)) :
    dumpsEntries d e (f :: fs) = entryRender d e ++ ",\n" ++ dumpsEntries d f fs := by
  rw [dumpsEntries]
  rfl

theorem dumpsEntries_ne_nil (d : Nat) (e : String × JVal) (l : List (String × JVal))
    (h : l ≠ []) :
    dumpsEntries d e l = entryRender d e ++ ",\n" ++ dumpsObjBody d l := by
  cases l with
  | nil => exact absurd rfl h
  | cons f fs => rw [dumpsEntries_cons]; rfl

theorem dumpsItems_nil (d : Nat) (x : JVal) :
    dumpsItems d x [] = itemRender d x := by
  rw [dumpsItems]
  rfl

theorem dumpsItems_cons (d : Nat) (x y : JVal) (ys : List JVal) :
    dumpsItems d x (y :: ys) = itemRender d x ++ ",\n" ++ dumpsItems d y ys := by
  rw [dumpsItems]
  rfl

theorem dumpsItems_ne_nil (d : Nat) (x : JVal) (l : List JVal) (h : l ≠ []) :
    dumpsItems d x l = itemRender d x ++ ",\n" ++ dumpsArrBody d l := by
  cases l with
  | nil => exact absurd rfl h
  | cons y ys => rw [dumpsItems_cons]; rfl

theorem dumps_jobj_ne_nil (d : Nat) (kvs : List (String × JVal)) (h : kvs ≠ []) :
    dumps d (.jobj kvs)
      = "\x7b\n" ++ dumpsObjBody (d + 1) kvs ++ "\n" ++ indentStr d ++ "\x7d" := by
  cases kvs with
  | nil => exact absurd rfl h
  | cons e es => rw [dumps]; rfl

theorem dumps_jarr_ne_nil (d : Nat) (xs : List JVal) (h : xs ≠ []) :
    dumps d (.jarr xs)
      = "[\n" ++ dumpsArrBody (d + 1) xs ++ "\n" ++ indentStr d ++ "]" := by
  cases xs with
  | nil => exact absurd rfl h
  | cons x rest => rw [dumps]; rfl

theorem objBody_factor (d : Nat) (pre : List (String × JVal)) (k : String)
    (post : List (String × JVal)) :
    ∃ P S : String, ∀ v : JVal,
      dumpsObjBody d (pre ++ (k, v) :: post) = P ++ dumps d v ++ S := by
  induction pre with
  | nil =>
    cases post with
    | nil =>
      refine ⟨indentStr d ++ "\"" ++ escStr k ++ "\": ", "", fun v => ?_⟩
      show dumpsEntries d (k, v) [] = _
      rw [dumpsEntries_nil]
      rw [String.append_empty]
      rfl
    | cons f fs =>
      refine ⟨indentStr d ++ "\"" ++ escStr k ++ "\": ",
        ",\n" ++ dumpsEntries d f fs, fun v => ?_⟩
      show dumpsEntries d (k, v) (f :: fs) = _
      rw [dumpsEntries_cons]
      simp [entryRender, String.append_assoc]
  | cons e pre ih =>
    obtain ⟨P, S, hPS⟩ := ih
    refine ⟨entryRender d e ++ ",\n" ++ P, S, fun v => ?_⟩
    show dumpsEntries d e (pre ++ (k, v) :: post) = _
    rw [dumpsEntries_ne_nil d e _ (by simp)]
    rw [hPS v]
    simp [String.append_assoc]

theorem arrBody_factor (d : Nat) (pre post : List JVal) :
    ∃ P S : String, ∀ v : JVal,
      dumpsArrBody d (pre ++ v :: post) = P ++ dumps d v ++ S := by
  induction pre with
  | nil =>
    cases post with
    | nil =>
      refine ⟨indentStr d, "", fun v => ?_⟩
      show dumpsItems d v [] = _
      rw [dumpsItems_nil]
      rw [String.append_empty]
      rfl
    | cons y ys =>
      refine ⟨indentStr d, ",\n" ++ dumpsItems d y ys, fun v => ?_⟩
      show dumpsItems d v (y :: ys) = _
      rw [dumpsItems_cons]
      simp [itemRender, String.append_assoc]
  | cons e pre ih =>
    obtain ⟨P, S, hPS⟩ := ih
    refine ⟨itemRender d e ++ ",\n" ++ P, S, fun v => ?_⟩
    show dumpsItems d e (pre ++ v :: post) = _
    rw [dumpsItems_ne_nil d e _ (by simp)]
    rw [hPS v]
    simp [String.append_assoc]

theorem dumps_obj_entry_factor (d : Nat) (pre : List (String × JVal)) (k : String)
    (post : List (String × JVal)) :
    ∃ P S : String, ∀ v : JVal,
      dumps d (.jobj (pre ++ (k, v) :: post)) = P ++ dumps (d + 1) v ++ S := by
  obtain ⟨P, S, h⟩ := objBody_factor (d + 1) pre k post
  refine ⟨"\x7b\n" ++ P, S ++ ("\n" ++ indentStr d ++ "\x7d"), fun v => ?_⟩
  rw [dumps_jobj_ne_nil _ _ (by simp)]
  rw [h v]
  simp [String.append_assoc]

theorem dumps_arr_item_factor (d : Nat) (pre post : List JVal) :
    ∃ P S : String, ∀ v : JVal,
      dumps d (.jarr (pre ++ v :: post)) = P ++ dumps (d + 1) v ++ S := by
  obtain ⟨P, S, h⟩ := arrBody_factor (d + 1) pre post
  refine ⟨"[\n" ++ P, S ++ ("\n" ++ indentStr d ++ "]"), fun v => ?_⟩
  rw [dumps_jarr_ne_nil _ _ (by simp)]
  rw [h v]
  simp [String.append_assoc]

theorem escStr_checksum (sha : List Nat → Nat) (w : FPath → List Nat) (tr : List FPath) :
    escStr (calculate_files_checksum sha w tr) = calculate_files_checksum sha w tr := by
  unfold calculate_files_checksum
  exact escStr_natToHex _

theorem str_data_append (a b : String) : (a ++ b).data = a.data ++ b.data := rfl

theorem str_append_mid_cancel {P S a b : String} (h : P ++ a ++ S = P ++ b ++ S) :
    a = b := by
  have hd := congrArg String.data h
  rw [str_data_append, str_data_append, str_data_append, str_data_append] at hd
  exact String.ext (append_mid_cancel hd)

/-- One-occurrence propagation shape: the file `x` is tracked by the source
step `A` (and by nothing else reachable), and `A` sits at exactly one
position of `B`'s dependency/base graph. -/
inductive AffectedOnce (x : FPath) (A : Step) : Step → Prop where
  | here :
      x ∈ A.tracked → A.tracked.Nodup →
      (∀ d ∈ A.deps, ¬ TracksIn x d) →
      (∀ b, A.base = some b → ¬ TracksIn x b) →
      AffectedOnce x A A
  | viaDep (t : Step) (n : String) (tr : List FPath) (se : List (String × String))
      (ca : Bool) (pre post : List Step) (base : Option Step) :
      AffectedOnce x A t →
      x ∉ tr →
      (∀ d ∈ pre ++ post, ¬ TracksIn x d) →
      (∀ b, base = some b → ¬ TracksIn x b) →
      AffectedOnce x A (Step.mk n tr se ca (pre ++ t :: post) base)
  | viaBase (t : Step) (n : String) (tr : List FPath) (se : List (String × String))
      (ca : Bool) (deps : List Step) :
      AffectedOnce x A t →
      x ∉ tr →
      (∀ d ∈ deps, ¬ TracksIn x d) →
      AffectedOnce x A (Step.mk n tr se ca deps (some t))

theorem affected_source {x : FPath} {A B : Step} (h : AffectedOnce x A B) :
    x ∈ A.tracked ∧ A.tracked.Nodup := by
  induction h with
  | here hx hnd _ _ => exact ⟨hx, hnd⟩
  | viaDep t n tr se ca pre post base _ _ _ _ ih => exact ih
  | viaBase t n tr se ca deps _ _ _ ih => exact ih

theorem affected_self {x : FPath} {A B : Step} (h : AffectedOnce x A B) :
    AffectedOnce x A A := by
  induction h with
  | here hx hnd hd hb => exact AffectedOnce.here hx hnd hd hb
  | viaDep t n tr se ca pre post base _ _ _ _ ih => exact ih
  | viaBase t n tr se ca deps _ _ _ ih => exact ih


/-- The printed `overall_info` of an affected step is a fixed prefix, then
the source step's files checksum, then a fixed suffix — for both content
maps, with the same prefix and suffix. -/
theorem affected_dumps_factor (sha : List Nat → Nat) {x : FPath}
    {w₁ w₂ : FPath → List Nat} (hagree : ∀ p, p ≠ x → w₁ p = w₂ p)
    {A B : Step} (h : AffectedOnce x A B) :
    ∀ d, ∃ P S : String,
      dumps d (overall_info sha w₁ B)
        = P ++ calculate_files_checksum sha w₁ A.tracked ++ S
      ∧ dumps d (overall_info sha w₂ B)
        = P ++ calculate_files_checksum sha w₂ A.tracked ++ S := by
  induction h with
  | here hx hnd hdeps hbase =>
    obtain ⟨n, tr, se, ca, deps, base⟩ := A
    intro d
    have hbase_eq : baseInfo sha w₁ base = baseInfo sha w₂ base := by
      cases base with
      | none => rfl
      | some b =>
        rw [baseInfo_some, baseInfo_some]
        exact overall_info_eq_of_not_tracks sha hagree (hbase b rfl)
    have hdeps_eq : deps.map (overall_info sha w₁) = deps.map (overall_info sha w₂) :=
      List.map_congr_left (fun d' hd' =>
        overall_info_eq_of_not_tracks sha hagree (hdeps d' hd'))
    obtain ⟨P, S, hf⟩ := dumps_obj_entry_factor d
      [("additional_settings",
         .jobj ((sortSettings se).map (fun kv => (kv.1, JVal.jstr kv.2)))),
       ("base_step", baseInfo sha w₁ base),
       ("dependency_steps", .jarr (deps.map (overall_info sha w₁)))]
      "files_checksum"
      [("name", .jstr n), ("used_files", .jarr (tr.map (fun p => .jstr (pathStr p))))]
    refine ⟨P ++ "\"", "\"" ++ S, ?_, ?_⟩
    · rw [overall_info_eq]
      have h2 := hf (.jstr (calculate_files_checksum sha w₁ tr))
      rw [dumps_jstr, escStr_checksum] at h2
      calc dumps d (JVal.jobj
            [("additional_settings",
               .jobj ((sortSettings se).map (fun kv => (kv.1, JVal.jstr kv.2)))),
             ("base_step", baseInfo sha w₁ base),
             ("dependency_steps", .jarr (deps.map (overall_info sha w₁))),
             ("files_checksum", .jstr (calculate_files_checksum sha w₁ tr)),
             ("name", .jstr n),
             ("used_files", .jarr (tr.map (fun p => .jstr (pathStr p))))])
          = P ++ ("\"" ++ calculate_files_checksum sha w₁ tr ++ "\"") ++ S := h2
        _ = P ++ "\"" ++ calculate_files_checksum sha w₁ tr ++ ("\"" ++ S) := by
            simp [String.append_assoc]
    · rw [overall_info_eq]
      rw [← hbase_eq, ← hdeps_eq]
      have h2 := hf (.jstr (calculate_files_checksum sha w₂ tr))
      rw [dumps_jstr, escStr_checksum] at h2
      calc dumps d (JVal.jobj
            [("additional_settings",
               .jobj ((sortSettings se).map (fun kv => (kv.1, JVal.jstr kv.2)))),
             ("base_step", baseInfo sha w₁ base),
             ("dependency_steps", .jarr (deps.map (overall_info sha w₁))),
             ("files_checksum", .jstr (calculate_files_checksum sha w₂ tr)),
             ("name", .jstr n),
             ("used_files", .jarr (tr.map (fun p => .jstr (pathStr p))))])
          = P ++ ("\"" ++ calculate_files_checksum sha w₂ tr ++ "\"") ++ S := h2
        _ = P ++ "\"" ++ calculate_files_checksum sha w₂ tr ++ ("\"" ++ S) := by
            simp [String.append_assoc]
  | viaDep t n tr se ca pre post base hAO hxtr hothers hbase ih =>
    intro d
    have hcs_eq : calculate_files_checksum sha w₁ tr = calculate_files_checksum sha w₂ tr :=
      calculate_files_checksum_congr sha tr
        (fun p hp => hagree p (fun hpx => hxtr (hpx ▸ hp)))
    have hbase_eq : baseInfo sha w₁ base = baseInfo sha w₂ base := by
      cases base with
      | none => rfl
      | some b =>
        rw [baseInfo_some, baseInfo_some]
        exact overall_info_eq_of_not_tracks sha hagree (hbase b rfl)
    have hpre_eq : pre.map (overall_info sha w₁) = pre.map (overall_info sha w₂) :=
      List.map_congr_left (fun d' hd' =>
        overall_info_eq_of_not_tracks sha hagree (hothers d' (List.mem_append_left _ hd')))
    have hpost_eq : post.map (overall_info sha w₁) = post.map (overall_info sha w₂) :=
      List.map_congr_left (fun d' hd' =>
        overall_info_eq_of_not_tracks sha hagree (hothers d' (List.mem_append_right _ hd')))
    obtain ⟨P₁, S₁, hf₁⟩ := dumps_obj_entry_factor d
      [("additional_settings",
         .jobj ((sortSettings se).map (fun kv => (kv.1, JVal.jstr kv.2)))),
       ("base_step", baseInfo sha w₁ base)]
      "dependency_steps"
      [("files_checksum", .jstr (calculate_files_checksum sha w₁ tr)),
       ("name", .jstr n), ("used_files", .jarr (tr.map (fun p => .jstr (pathStr p))))]
    obtain ⟨P₂, S₂, hf₂⟩ := dumps_arr_item_factor (d + 1)
      (pre.map (overall_info sha w₁)) (post.map (overall_info sha w₁))
    obtain ⟨P₃, S₃, h3₁, h3₂⟩ := ih (d + 2)
    refine ⟨P₁ ++ P₂ ++ P₃, S₃ ++ S₂ ++ S₁, ?_, ?_⟩
    · rw [overall_info_eq]
      have harr : (pre ++ t :: post).map (overall_info sha w₁)
          = pre.map (overall_info sha w₁)
            ++ overall_info sha w₁ t :: post.map (overall_info sha w₁) := by
        simp
      have h1 := hf₁ (.jarr ((pre ++ t :: post).map (overall_info sha w₁)))
      rw [harr] at h1
      rw [hf₂ (overall_info sha w₁ t)] at h1
      rw [h3₁] at h1
      rw [← harr] at h1
      calc dumps d (JVal.jobj
            [("additional_settings",
               .jobj ((sortSettings se).map (fun kv => (kv.1, JVal.jstr kv.2)))),
             ("base_step", baseInfo sha w₁ base),
             ("dependency_steps", .jarr ((pre ++ t :: post).map (overall_info sha w₁))),
             ("files_checksum", .jstr (calculate_files_checksum sha w₁ tr)),
             ("name", .jstr n),
             ("used_files", .jarr (tr.map (fun p => .jstr (pathStr p))))])
          = P₁ ++ (P₂ ++ (P₃ ++ calculate_files_checksum sha w₁ A.tracked ++ S₃) ++ S₂) ++ S₁ :=
            h1
        _ = P₁ ++ P₂ ++ P₃ ++ calculate_files_checksum sha w₁ A.tracked
            ++ (S₃ ++ S₂ ++ S₁) := by simp [String.append_assoc]
    · rw [overall_info_eq]
      rw [← hbase_eq, ← hcs_eq]
      have harr : (pre ++ t :: post).map (overall_info sha w₂)
          = pre.map (overall_info sha w₁)
            ++ overall_info sha w₂ t :: post.map (overall_info sha w₁) := by
        rw [hpre_eq, hpost_eq]
        simp
      have h1 := hf₁ (.jarr ((pre ++ t :: post).map (overall_info sha w₂)))
      rw [harr] at h1
      rw [hf₂ (overall_info sha w₂ t)] at h1
      rw [h3₂] at h1
      rw [← harr] at h1
      calc dumps d (JVal.jobj
            [("additional_settings",
               .jobj ((sortSettings se).map (fun kv => (kv.1, JVal.jstr kv.2)))),
             ("base_step", baseInfo sha w₁ base),
             ("dependency_steps", .jarr ((pre ++ t :: post).map (overall_info sha w₂))),
             ("files_checksum", .jstr (calculate_files_checksum sha w₁ tr)),
             ("name", .jstr n),
             ("used_files", .jarr (tr.map (fun p => .jstr (pathStr p))))])
          = P₁ ++ (P₂ ++ (P₃ ++ calculate_files_checksum sha w₂ A.tracked ++ S₃) ++ S₂) ++ S₁ :=
            h1
        _ = P₁ ++ P₂ ++ P₃ ++ calculate_files_checksum sha w₂ A.tracked
            ++ (S₃ ++ S₂ ++ S₁) := by simp [String.append_assoc]
  | viaBase t n tr se ca deps hAO hxtr hdeps ih =>
    intro d
    have hcs_eq : calculate_files_checksum sha w₁ tr = calculate_files_checksum sha w₂ tr :=
      calculate_files_checksum_congr sha tr
        (fun p hp => hagree p (fun hpx => hxtr (hpx ▸ hp)))
    have hdeps_eq : deps.map (overall_info sha w₁) = deps.map (overall_info sha w₂) :=
      List.map_congr_left (fun d' hd' =>
        overall_info_eq_of_not_tracks sha hagree (hdeps d' hd'))
    obtain ⟨P₁, S₁, hf₁⟩ := dumps_obj_entry_factor d
      [("additional_settings",
         .jobj ((sortSettings se).map (fun kv => (kv.1, JVal.jstr kv.2))))]
      "base_step"
      [("dependency_steps", .jarr (deps.map (overall_info sha w₁))),
       ("files_checksum", .jstr (calculate_files_checksum sha w₁ tr)),
       ("name", .jstr n), ("used_files", .jarr (tr.map (fun p => .jstr (pathStr p))))]
    obtain ⟨P₃, S₃, h3₁, h3₂⟩ := ih (d + 1)
    refine ⟨P₁ ++ P₃, S₃ ++ S₁, ?_, ?_⟩
    · rw [overall_info_eq]
      rw [baseInfo_some]
      have h1 := hf₁ (overall_info sha w₁ t)
      rw [h3₁] at h1
      calc dumps d (JVal.jobj
            [("additional_settings",
               .jobj ((sortSettings se).map (fun kv => (kv.1, JVal.jstr kv.2)))),
             ("base_step", overall_info sha w₁ t),
             ("dependency_steps", .jarr (deps.map (overall_info sha w₁))),
             ("files_checksum", .jstr (calculate_files_checksum sha w₁ tr)),
             ("name", .jstr n),
             ("used_files", .jarr (tr.map (fun p => .jstr (pathStr p))))])
          = P₁ ++ (P₃ ++ calculate_files_checksum sha w₁ A.tracked ++ S₃) ++ S₁ := h1
        _ = P₁ ++ P₃ ++ calculate_files_checksum sha w₁ A.tracked ++ (S₃ ++ S₁) := by
            simp [String.append_assoc]
    · rw [overall_info_eq]
      rw [baseInfo_some]
      rw [← hcs_eq, ← hdeps_eq]
      have h1 := hf₁ (overall_info sha w₂ t)
      rw [h3₂] at h1
      calc dumps d (JVal.jobj
            [("additional_settings",
               .jobj ((sortSettings se).map (fun kv => (kv.1, JVal.jstr kv.2)))),
             ("base_step", overall_info sha w₂ t),
             ("dependency_steps", .jarr (deps.map (overall_info sha w₁))),
             ("files_checksum", .jstr (calculate_files_checksum sha w₁ tr)),
             ("name", .jstr n),
             ("used_files", .jarr (tr.map (fun p => .jstr (pathStr p))))])
          = P₁ ++ (P₃ ++ calculate_files_checksum sha w₂ A.tracked ++ S₃) ++ S₁ := h1
        _ = P₁ ++ P₃ ++ calculate_files_checksum sha w₂ A.tracked ++ (S₃ ++ S₁) := by
            simp [String.append_assoc]

theorem step_id_ne_of_factor (sha : List Nat → Nat) (hsha : Function.Injective sha)
    {w₁ w₂ : FPath → List Nat} {B : Step} {a b P S : String} (hab : a ≠ b)
    (h1 : dumps 0 (overall_info sha w₁ B) = P ++ a ++ S)
    (h2 : dumps 0 (overall_info sha w₂ B) = P ++ b ++ S) :
    step_id sha w₁ B ≠ step_id sha w₂ B := by
  intro heq
  unfold step_id at heq
  have hdata := congrArg String.data heq
  have e : ∀ (s : String), (pyLower s).data = s.data.map Char.toLower := fun _ => rfl
  rw [e, e] at hdata
  rw [str_data_append, str_data_append, str_data_append, str_data_append] at hdata
  simp only [List.map_append] at hdata
  rw [List.append_assoc, List.append_assoc] at hdata
  have hh := List.append_cancel_left hdata
  have hh2 := List.append_cancel_left hh
  have e2 : ∀ m, (natToHex m).data = toHexChars m := fun _ => rfl
  rw [e2, e2] at hh2
  rw [toHexChars_toLower, toHexChars_toLower] at hh2
  have hm := toHexChars_inj hh2
  have hbytes := hsha hm
  have hstr := strBytes_inj hbytes
  unfold overall_info_str at hstr
  rw [h1, h2] at hstr
  exact hab (str_append_mid_cancel hstr)

/-- C9: if step `A` tracks file `x` (and `x` is tracked nowhere else in the
graph of `B`, which contains `A` at one dependency/base position), then
changing `x`'s bytes changes `A`'s overall info (its fingerprint) and hence
`A`'s and `B`'s identities, under an injective digest; any step that does
not transitively track `x` keeps a byte-identical identity. -/
theorem upstream_change_propagates (sha : List Nat → Nat)
    (hsha : Function.Injective sha) (x : FPath) (w₁ w₂ : FPath → List Nat)
    (hagree : ∀ p, p ≠ x → w₁ p = w₂ p) (hdiff : w₁ x ≠ w₂ x)
    (A B : Step) (hAB : AffectedOnce x A B) :
    overall_info sha w₁ A ≠ overall_info sha w₂ A
    ∧ step_id sha w₁ A ≠ step_id sha w₂ A
    ∧ step_id sha w₁ B ≠ step_id sha w₂ B
    ∧ ∀ C, ¬ TracksIn x C → step_id sha w₁ C = step_id sha w₂ C := by
  obtain ⟨hxA, hndA⟩ := affected_source hAB
  have hcs : calculate_files_checksum sha w₁ A.tracked
      ≠ calculate_files_checksum sha w₂ A.tracked :=
    checksum_ne_of_tracked hsha hxA hndA hagree hdiff
  refine ⟨?_, ?_, ?_, ?_⟩
  · intro heq
    obtain ⟨P, S, h1, h2⟩ := affected_dumps_factor sha hagree (affected_self hAB) 0
    rw [heq] at h1
    exact hcs (str_append_mid_cancel (h1.symm.trans h2))
  · obtain ⟨P, S, h1, h2⟩ := affected_dumps_factor sha hagree (affected_self hAB) 0
    exact step_id_ne_of_factor sha hsha hcs h1 h2
  · obtain ⟨P, S, h1, h2⟩ := affected_dumps_factor sha hagree hAB 0
    exact step_id_ne_of_factor sha hsha hcs h1 h2
  · intro C hC
    unfold step_id overall_info_str
    rw [overall_info_eq_of_not_tracks sha hagree hC]

/-- The spec example graph: `sensA` tracks `x`, `sensB` depends on `sensA`
and tracks `y`; the two content maps differ only at `x`. -/
def sensA : Step := .mk "a" [["x"]] [] false [] none

def sensB : Step := .mk "b" [["y"]] [] false [sensA] none

def sensW₁ : FPath → List Nat := fun p => if p = ["x"] then [1] else [2]

def sensW₂ : FPath → List Nat := fun p => if p = ["x"] then [3] else [2]

/-- C9 witness: the spec §8 scenario with concrete steps and contents. -/
theorem upstream_change_propagates_witness :
    overall_info encodeBytes sensW₁ sensA ≠ overall_info encodeBytes sensW₂ sensA
    ∧ step_id encodeBytes sensW₁ sensA ≠ step_id encodeBytes sensW₂ sensA
    ∧ step_id encodeBytes sensW₁ sensB ≠ step_id encodeBytes sensW₂ sensB
    ∧ ∀ C, ¬ TracksIn ["x"] C →
        step_id encodeBytes sensW₁ C = step_id encodeBytes sensW₂ C :=
  upstream_change_propagates encodeBytes encodeBytes_inj ["x"] sensW₁ sensW₂
    (by intro p hp; simp [sensW₁, sensW₂, hp])
    (by simp [sensW₁, sensW₂])
    sensA sensB
    (by
      have hA : AffectedOnce ["x"] sensA sensA :=
        AffectedOnce.here (by simp [sensA, Step.tracked])
          (by simp [sensA, Step.tracked])
          (by intro d hd; simp [sensA, Step.deps] at hd)
          (by intro b hb; simp [sensA, Step.base] at hb)
      exact AffectedOnce.viaDep sensA "b" [["y"]] [] false [] [] none hA
        (by simp) (by intro d hd; simp at hd) (by intro b hb; simp at hb))

/-!
## `BuildStep.run` and the cache commit protocol (build_step.py lines 300-346)

The run of a step: check `output_directory.exists()` (cache hit → skip);
otherwise run dependency steps, then the base step, remove a stale temp
output directory and recreate it, invoke `_run`, and on success rename the
temp directory to the final `<build_root>/step_outputs/<id>` directory.

The filesystem is the pair of directory-name sets under `step_outputs`
(`committed` = final `<id>` directories, `temps` = `~<id>` directories);
`log` records each `_run` invocation in order.  `ident` abstracts `self.id`
(the string identity of a step) and `ok` tells whether the `_run` of the
step with a given identity succeeds; a raised exception is the `.error`
result carrying the filesystem state at the raise.
-/

structure BuildState where
  committed : List String
  temps : List String
  log : List String

/-- `rmtree` of a stale temp directory followed by `mkdir`: the directory is
present afterwards. -/
def ensureTemp (i : String) (l : List String) : List String :=
  if i ∈ l then l else i :: l

mutual

def runStep (ident : Step → String) (ok : String → Bool) (s : Step)
    (st : BuildState) : Except BuildState BuildState :=
  if ident s ∈ st.committed then .ok st
  else
    match runList ident ok s.deps st with
    | .error e => .error e
    | .ok st₁ =>
      match runBase ident ok s.base st₁ with
      | .error e => .error e
      | .ok st₂ =>
        let st₃ : BuildState :=
          ⟨st₂.committed, ensureTemp (ident s) st₂.temps, st₂.log ++ [ident s]⟩
        if ok (ident s) then
          .ok ⟨ident s :: st₃.committed, st₃.temps.erase (ident s), st₃.log⟩
        else
          .error st₃
termination_by sizeOf s
decreasing_by
  all_goals cases s
  all_goals simp [Step.deps, Step.base]
  all_goals omega

def runList (ident : Step → String) (ok : String → Bool) :
    List Step → BuildState → Except BuildState BuildState
  | [], st => .ok st
  | d :: ds, st =>
    match runStep ident ok d st with
    | .error e => .error e
    | .ok st' => runList ident ok ds st'
termination_by l _ => sizeOf l
decreasing_by
  all_goals simp
  all_goals omega

def runBase (ident : Step → String) (ok : String → Bool) :
    Option Step → BuildState → Except BuildState BuildState
  | none, st => .ok st
  | some b, st => runStep ident ok b st
termination_by o _ => sizeOf o
decreasing_by
  simp

end

/-- The state a run leaves behind, whether it returned or raised. -/
def outState : Except BuildState BuildState → BuildState
  | .ok r => r
  | .error r => r

/-- What any (partial or complete) run does to the build state: the log only
grows, committed directories are never removed, and every newly committed
identity was logged by a successful `_run` (`ok i = true`): the rename to
the final directory is the only commit point and happens only after a
successful `_run` of that identity. -/
def StepMono (ok : String → Bool) (st r : BuildState) : Prop :=
  (∃ Δ, r.log = st.log ++ Δ)
  ∧ (∀ i, i ∈ st.committed → i ∈ r.committed)
  ∧ (∀ i, i ∈ r.committed → i ∈ st.committed ∨ (i ∈ r.log ∧ ok i = true))

theorem stepMono_refl (ok : String → Bool) (st : BuildState) : StepMono ok st st :=
  ⟨⟨[], by simp⟩, fun _ h => h, fun _ h => Or.inl h⟩

theorem stepMono_trans {ok : String → Bool} {st₁ st₂ st₃ : BuildState}
    (h1 : StepMono ok st₁ st₂) (h2 : StepMono ok st₂ st₃) : StepMono ok st₁ st₃ := by
  obtain ⟨⟨Δ₁, hΔ₁⟩, hm₁, hc₁⟩ := h1
  obtain ⟨⟨Δ₂, hΔ₂⟩, hm₂, hc₂⟩ := h2
  refine ⟨⟨Δ₁ ++ Δ₂, by rw [hΔ₂, hΔ₁, List.append_assoc]⟩,
    fun i h => hm₂ i (hm₁ i h), ?_⟩
  intro i h
  rcases hc₂ i h with h' | ⟨hl, ho⟩
  · rcases hc₁ i h' with h'' | ⟨hl, ho⟩
    · exact Or.inl h''
    · exact Or.inr ⟨by rw [hΔ₂]; exact List.mem_append_left _ hl, ho⟩
  · exact Or.inr ⟨hl, ho⟩


theorem outState_ok (r : BuildState) : outState (.ok r) = r := rfl

theorem outState_error (r : BuildState) : outState (.error r) = r := rfl

theorem runStep_eq_of_hit (ident : Step → String) (ok : String → Bool)
    {s : Step} {st : BuildState} (hc : ident s ∈ st.committed) :
    runStep ident ok s st = .ok st := by
  rw [runStep, if_pos hc]

theorem runStep_eq_of_deps_error (ident : Step → String) (ok : String → Bool)
    {s : Step} {st e : BuildState} (hc : ident s ∉ st.committed)
    (hdl : runList ident ok s.deps st = .error e) :
    runStep ident ok s st = .error e := by
  rw [runStep, if_neg hc, hdl]

theorem runStep_eq_of_base_error (ident : Step → String) (ok : String → Bool)
    {s : Step} {st st₁ e : BuildState} (hc : ident s ∉ st.committed)
    (hdl : runList ident ok s.deps st = .ok st₁)
    (hb : runBase ident ok s.base st₁ = .error e) :
    runStep ident ok s st = .error e := by
  rw [runStep, if_neg hc, hdl]
  dsimp only
  rw [hb]

theorem runStep_eq_of_miss (ident : Step → String) (ok : String → Bool)
    {s : Step} {st st₁ st₂ : BuildState} (hc : ident s ∉ st.committed)
    (hdl : runList ident ok s.deps st = .ok st₁)
    (hb : runBase ident ok s.base st₁ = .ok st₂) :
    runStep ident ok s st
      = if ok (ident s) = true then
          .ok ⟨ident s :: st₂.committed,
            (ensureTemp (ident s) st₂.temps).erase (ident s),
            st₂.log ++ [ident s]⟩
        else
          .error ⟨st₂.committed, ensureTemp (ident s) st₂.temps,
            st₂.log ++ [ident s]⟩ := by
  rw [runStep, if_neg hc, hdl]
  dsimp only
  rw [hb]

theorem runList_nil (ident : Step → String) (ok : String → Bool) (st : BuildState) :
    runList ident ok [] st = .ok st := by
  rw [runList]

theorem runList_cons_error (ident : Step → String) (ok : String → Bool)
    {d : Step} {ds : List Step} {st e : BuildState}
    (h : runStep ident ok d st = .error e) :
    runList ident ok (d :: ds) st = .error e := by
  rw [runList, h]

theorem runList_cons_ok (ident : Step → String) (ok : String → Bool)
    {d : Step} {ds : List Step} {st st' : BuildState}
    (h : runStep ident ok d st = .ok st') :
    runList ident ok (d :: ds) st = runList ident ok ds st' := by
  rw [runList, h]

theorem runBase_none (ident : Step → String) (ok : String → Bool) (st : BuildState) :
    runBase ident ok none st = .ok st := by
  rw [runBase]

theorem runBase_some (ident : Step → String) (ok : String → Bool) (b : Step)
    (st : BuildState) : runBase ident ok (some b) st = runStep ident ok b st := by
  rw [runBase]

theorem runList_mono (ident : Step → String) (ok : String → Bool)
    (l : List Step)
    (hpt : ∀ d ∈ l, ∀ st, StepMono ok st (outState (runStep ident ok d st))) :
    ∀ st, StepMono ok st (outState (runList ident ok l st)) := by
  induction l with
  | nil =>
    intro st
    rw [runList_nil, outState_ok]
    exact stepMono_refl ok st
  | cons d ds ih =>
    intro st
    have hd := hpt d (by simp) st
    cases hdl : runStep ident ok d st with
    | error e =>
      rw [runList_cons_error ident ok hdl, outState_error]
      rw [hdl, outState_error] at hd
      exact hd
    | ok st' =>
      rw [runList_cons_ok ident ok hdl]
      rw [hdl, outState_ok] at hd
      exact stepMono_trans hd (ih (fun d' hd' => hpt d' (by simp [hd'])) st')

theorem runBase_mono (ident : Step → String) (ok : String → Bool)
    (o : Option Step)
    (hpt : ∀ b, o = some b → ∀ st, StepMono ok st (outState (runStep ident ok b st))) :
    ∀ st, StepMono ok st (outState (runBase ident ok o st)) := by
  cases o with
  | none =>
    intro st
    rw [runBase_none, outState_ok]
    exact stepMono_refl ok st
  | some b =>
    intro st
    rw [runBase_some]
    exact hpt b rfl st

theorem runStep_mono (ident : Step → String) (ok : String → Bool) :
    ∀ s st, StepMono ok st (outState (runStep ident ok s st)) := by
  intro s
  induction s using Step.strongInd with
  | _ n tr se ca deps base ihd ihb =>
    intro st
    by_cases hc : ident (Step.mk n tr se ca deps base) ∈ st.committed
    · rw [runStep_eq_of_hit ident ok hc, outState_ok]
      exact stepMono_refl ok st
    · have hdl_mono := runList_mono ident ok deps (fun d hd => ihd d hd) st
      cases hdl : runList ident ok (Step.mk n tr se ca deps base).deps st with
      | error e =>
        rw [runStep_eq_of_deps_error ident ok hc hdl, outState_error]
        rw [show runList ident ok deps st = .error e from hdl, outState_error] at hdl_mono
        exact hdl_mono
      | ok st₁ =>
        rw [show runList ident ok deps st = .ok st₁ from hdl, outState_ok] at hdl_mono
        have hb_mono := runBase_mono ident ok base (fun b hb => ihb b hb) st₁
        cases hb : runBase ident ok (Step.mk n tr se ca deps base).base st₁ with
        | error e =>
          rw [runStep_eq_of_base_error ident ok hc hdl hb, outState_error]
          rw [show runBase ident ok base st₁ = .error e from hb, outState_error] at hb_mono
          exact stepMono_trans hdl_mono hb_mono
        | ok st₂ =>
          rw [show runBase ident ok base st₁ = .ok st₂ from hb, outState_ok] at hb_mono
          have h12 := stepMono_trans hdl_mono hb_mono
          rw [runStep_eq_of_miss ident ok hc hdl hb]
          by_cases hok : ok (ident (Step.mk n tr se ca deps base)) = true
          · rw [if_pos hok, outState_ok]
            refine stepMono_trans h12 ⟨⟨[ident (Step.mk n tr se ca deps base)], rfl⟩, ?_, ?_⟩
            · intro i h
              exact List.mem_cons_of_mem _ h
            · intro i h
              rcases List.mem_cons.mp h with rfl | h'
              · exact Or.inr ⟨by simp, hok⟩
              · exact Or.inl h'
          · rw [if_neg hok, outState_error]
            refine stepMono_trans h12 ⟨⟨[ident (Step.mk n tr se ca deps base)], rfl⟩, ?_, ?_⟩
            · intro i h
              exact h
            · intro i h
              exact Or.inl h

/-- If a step's `_run` always fails and its final directory does not exist
yet, `run` raises: either a dependency/base step raises first, or the step's
own `_run` raises before the commit rename. -/
theorem runStep_error_of_fail (ident : Step → String) (ok : String → Bool)
    (s : Step) (st : BuildState) (hok : ok (ident s) = false)
    (hnc : ident s ∉ st.committed) :
    ∃ e, runStep ident ok s st = .error e := by
  cases hdl : runList ident ok s.deps st with
  | error e => exact ⟨e, runStep_eq_of_deps_error ident ok hnc hdl⟩
  | ok st₁ =>
    cases hb : runBase ident ok s.base st₁ with
    | error e => exact ⟨e, runStep_eq_of_base_error ident ok hnc hdl hb⟩
    | ok st₂ =>
      refine ⟨⟨st₂.committed, ensureTemp (ident s) st₂.temps, st₂.log ++ [ident s]⟩, ?_⟩
      rw [runStep_eq_of_miss ident ok hnc hdl hb]
      rw [if_neg (by rw [hok]; exact Bool.false_ne_true)]

/-- C3: if a step's `_run` fails, `run` raises and the final
`step_outputs/<id>` directory is not created by that run — the rename on
success is the only commit point, so an identity whose `_run` never
succeeds is absent from the raised state. -/
theorem run_fail_no_final_dir (ident : Step → String) (ok : String → Bool)
    (s : Step) (st : BuildState) (hok : ok (ident s) = false)
    (hnc : ident s ∉ st.committed) :
    ∃ e, runStep ident ok s st = .error e ∧ ident s ∉ e.committed := by
  obtain ⟨e, he⟩ := runStep_error_of_fail ident ok s st hok hnc
  have hmono := runStep_mono ident ok s st
  rw [he, outState_error] at hmono
  refine ⟨e, he, ?_⟩
  intro hmem
  rcases hmono.2.2 _ hmem with h | ⟨_, hoki⟩
  · exact hnc h
  · rw [hok] at hoki
    exact Bool.noConfusion hoki

/-- C3 witness: a single step whose `_run` fails, on an empty build root. -/
theorem run_fail_no_final_dir_witness :
    ∃ e, runStep (fun t => t.name) (fun _ => false)
        (Step.mk "s" [] [] false [] none) ⟨[], [], []⟩ = .error e
      ∧ "s" ∉ e.committed :=
  run_fail_no_final_dir (fun t => t.name) (fun _ => false)
    (Step.mk "s" [] [] false [] none) ⟨[], [], []⟩ rfl (by simp)

/-!
### At most one `_run` per identity (C4)

The code keeps no memo set: the memoization is the filesystem itself.  A
step is executed only when its final directory is absent, and a successful
`_run` commits the directory before returning, so every later encounter of
the same identity resolves as a cache hit.
-/

theorem allSubs_sizeOf_le : ∀ t : Step, ∀ u ∈ allSubs t, sizeOf u ≤ sizeOf t := by
  intro t
  induction t using Step.strongInd with
  | _ n tr se ca deps base ihd ihb =>
    intro u hu
    rw [mem_allSubs_iff] at hu
    rcases hu with rfl | ⟨d, hd, hud⟩ | ⟨b, hb, hub⟩
    · exact le_refl _
    · have h1 := ihd d hd u hud
      have h2 : sizeOf d < sizeOf deps := List.sizeOf_lt_of_mem hd
      simp only [Step.mk.sizeOf_spec]
      omega
    · have h1 := ihb b hb u hub
      subst hb
      simp only [Step.mk.sizeOf_spec, Option.some.sizeOf_spec]
      omega

/-- The log records distinct identities, and every logged identity has been
committed (its directory was renamed to final). -/
def LogInv (st : BuildState) : Prop :=
  st.log.Nodup ∧ ∀ i ∈ st.log, i ∈ st.committed

/-- Committed identities are closed under sub-steps: whenever the identity
of a reachable step is committed, the identities of all its sub-steps are
committed too. -/
def ClosedC (ident : Step → String) (s₀ : Step) (st : BuildState) : Prop :=
  ∀ t ∈ allSubs s₀, ident t ∈ st.committed → ∀ u ∈ allSubs t, ident u ∈ st.committed

theorem runList_ok_invariants (ident : Step → String) (ok : String → Bool) (s₀ : Step) :
    ∀ (l : List Step),
      (∀ d ∈ l, ∀ st r, runStep ident ok d st = .ok r → LogInv st → ClosedC ident s₀ st →
        LogInv r ∧ ClosedC ident s₀ r ∧ (∀ u ∈ allSubs d, ident u ∈ r.committed)
        ∧ (∀ i ∈ r.log, i ∈ st.log ∨ ∃ u ∈ allSubs d, ident u = i)) →
      ∀ st r, runList ident ok l st = .ok r → LogInv st → ClosedC ident s₀ st →
        LogInv r ∧ ClosedC ident s₀ r
        ∧ (∀ d ∈ l, ∀ u ∈ allSubs d, ident u ∈ r.committed)
        ∧ (∀ i ∈ r.log, i ∈ st.log ∨ ∃ d ∈ l, ∃ u ∈ allSubs d, ident u = i) := by
  intro l
  induction l with
  | nil =>
    intro _ st r hrun hlog hcl
    rw [runList_nil] at hrun
    injection hrun with h
    subst h
    exact ⟨hlog, hcl, by simp, fun i hi => Or.inl hi⟩
  | cons d ds ih =>
    intro hpt st r hrun hlog hcl
    cases hdl : runStep ident ok d st with
    | error e =>
      rw [runList_cons_error ident ok hdl] at hrun
      exact Except.noConfusion hrun
    | ok st' =>
      rw [runList_cons_ok ident ok hdl] at hrun
      obtain ⟨hlog', hcl', hdsub, horig⟩ := hpt d (by simp) st st' hdl hlog hcl
      obtain ⟨hlogr, hclr, hsubs, horigr⟩ :=
        ih (fun d' hd' => hpt d' (by simp [hd'])) st' r hrun hlog' hcl'
      have hmono : StepMono ok st' (outState (runList ident ok ds st')) :=
        runList_mono ident ok ds (fun d' _ st'' => runStep_mono ident ok d' st'') st'
      rw [hrun, outState_ok] at hmono
      refine ⟨hlogr, hclr, ?_, ?_⟩
      · intro d' hd' u hu
        rcases List.mem_cons.mp hd' with rfl | hd'
        · exact hmono.2.1 _ (hdsub u hu)
        · exact hsubs d' hd' u hu
      · intro i hi
        rcases horigr i hi with hi' | ⟨d', hd', u, hu, hui⟩
        · rcases horig i hi' with hi'' | ⟨u, hu, hui⟩
          · exact Or.inl hi''
          · exact Or.inr ⟨d, by simp, u, hu, hui⟩
        · exact Or.inr ⟨d', by simp [hd'], u, hu, hui⟩

theorem runBase_ok_invariants (ident : Step → String) (ok : String → Bool) (s₀ : Step)
    (o : Option Step)
    (hpt : ∀ b, o = some b → ∀ st r, runStep ident ok b st = .ok r →
      LogInv st → ClosedC ident s₀ st →
      LogInv r ∧ ClosedC ident s₀ r ∧ (∀ u ∈ allSubs b, ident u ∈ r.committed)
      ∧ (∀ i ∈ r.log, i ∈ st.log ∨ ∃ u ∈ allSubs b, ident u = i)) :
    ∀ st r, runBase ident ok o st = .ok r → LogInv st → ClosedC ident s₀ st →
      LogInv r ∧ ClosedC ident s₀ r
      ∧ (∀ b, o = some b → ∀ u ∈ allSubs b, ident u ∈ r.committed)
      ∧ (∀ i ∈ r.log, i ∈ st.log ∨ ∃ b, o = some b ∧ ∃ u ∈ allSubs b, ident u = i) := by
  cases o with
  | none =>
    intro st r hrun hlog hcl
    rw [runBase_none] at hrun
    injection hrun with h
    subst h
    refine ⟨hlog, hcl, ?_, fun i hi => Or.inl hi⟩
    intro b hb
    exact Option.noConfusion hb
  | some b =>
    intro st r hrun hlog hcl
    rw [runBase_some] at hrun
    obtain ⟨hlogr, hclr, hsubs, horig⟩ := hpt b rfl st r hrun hlog hcl
    refine ⟨hlogr, hclr, ?_, ?_⟩
    · intro b' hb'
      injection hb' with h
      subst h
      exact hsubs
    · intro i hi
      rcases horig i hi with h | ⟨u, hu, hui⟩
      · exact Or.inl h
      · exact Or.inr ⟨b, rfl, u, hu, hui⟩

theorem runStep_ok_invariants (ident : Step → String) (ok : String → Bool) (s₀ : Step)
    (hinj : ∀ u ∈ allSubs s₀, ∀ v ∈ allSubs s₀, ident u = ident v → u = v) :
    ∀ s, s ∈ allSubs s₀ → ∀ st r, runStep ident ok s st = .ok r →
      LogInv st → ClosedC ident s₀ st →
      LogInv r ∧ ClosedC ident s₀ r
      ∧ (∀ u ∈ allSubs s, ident u ∈ r.committed)
      ∧ (∀ i ∈ r.log, i ∈ st.log ∨ ∃ u ∈ allSubs s, ident u = i) := by
  intro s
  induction s using Step.strongInd with
  | _ n tr se ca deps base ihd ihb =>
    intro hs st r hrun hlog hcl
    have hdmem : ∀ d ∈ deps, d ∈ allSubs (Step.mk n tr se ca deps base) := by
      intro d hd
      rw [mem_allSubs_iff]
      exact Or.inr (Or.inl ⟨d, hd, self_mem_allSubs d⟩)
    have hds₀ : ∀ d ∈ deps, d ∈ allSubs s₀ :=
      fun d hd => allSubs_trans s₀ _ hs d (hdmem d hd)
    have hbmem : ∀ b, base = some b → b ∈ allSubs (Step.mk n tr se ca deps base) := by
      intro b hb
      rw [mem_allSubs_iff]
      exact Or.inr (Or.inr ⟨b, hb, self_mem_allSubs b⟩)
    have hbs₀ : ∀ b, base = some b → b ∈ allSubs s₀ :=
      fun b hb => allSubs_trans s₀ _ hs b (hbmem b hb)
    by_cases hc : ident (Step.mk n tr se ca deps base) ∈ st.committed
    · rw [runStep_eq_of_hit ident ok hc] at hrun
      injection hrun with h
      subst h
      exact ⟨hlog, hcl, hcl _ hs hc, fun i hi => Or.inl hi⟩
    · cases hdl : runList ident ok (Step.mk n tr se ca deps base).deps st with
      | error e =>
        rw [runStep_eq_of_deps_error ident ok hc hdl] at hrun
        exact Except.noConfusion hrun
      | ok st₁ =>
        cases hb : runBase ident ok (Step.mk n tr se ca deps base).base st₁ with
        | error e =>
          rw [runStep_eq_of_base_error ident ok hc hdl hb] at hrun
          exact Except.noConfusion hrun
        | ok st₂ =>
          have hL := runList_ok_invariants ident ok s₀ deps
            (fun d hd => ihd d hd (hds₀ d hd)) st st₁ hdl hlog hcl
          have hB := runBase_ok_invariants ident ok s₀ base
            (fun b hb' => ihb b hb' (hbs₀ b hb')) st₁ st₂ hb hL.1 hL.2.1
          rw [runStep_eq_of_miss ident ok hc hdl hb] at hrun
          by_cases hok : ok (ident (Step.mk n tr se ca deps base)) = true
          · rw [if_pos hok] at hrun
            injection hrun with h
            subst h
            obtain ⟨⟨hnd₂, hlc₂⟩, hcl₂, hbsub, horigB⟩ := hB
            obtain ⟨_, _, hdsub, horigL⟩ := hL
            have hmonoB : StepMono ok st₁ (outState (runBase ident ok base st₁)) :=
              runBase_mono ident ok base (fun b _ st' => runStep_mono ident ok b st') st₁
            rw [show runBase ident ok base st₁ = .ok st₂ from hb, outState_ok] at hmonoB
            have hnotlog : ident (Step.mk n tr se ca deps base) ∉ st₂.log := by
              intro hin
              rcases horigB _ hin with h1 | ⟨b, hb', u, hu, hui⟩
              · rcases horigL _ h1 with h2 | ⟨d, hd, u, hu, hui⟩
                · exact hc (hlog.2 _ h2)
                · have hu0 : u ∈ allSubs s₀ := allSubs_trans s₀ d (hds₀ d hd) u hu
                  have heq : u = Step.mk n tr se ca deps base := hinj u hu0 _ hs hui
                  rw [heq] at hu
                  have h1' := allSubs_sizeOf_le d _ hu
                  have h2' : sizeOf d < sizeOf deps := List.sizeOf_lt_of_mem hd
                  simp only [Step.mk.sizeOf_spec] at h1'
                  omega
              · have hu0 : u ∈ allSubs s₀ := allSubs_trans s₀ b (hbs₀ b hb') u hu
                have heq : u = Step.mk n tr se ca deps base := hinj u hu0 _ hs hui
                rw [heq] at hu
                have h1' := allSubs_sizeOf_le b _ hu
                subst hb'
                simp only [Step.mk.sizeOf_spec, Option.some.sizeOf_spec] at h1'
                omega
            have hsubs : ∀ u ∈ allSubs (Step.mk n tr se ca deps base),
                ident u ∈ ident (Step.mk n tr se ca deps base) :: st₂.committed := by
              intro u hu
              rw [mem_allSubs_iff] at hu
              rcases hu with rfl | ⟨d, hd, hud⟩ | ⟨b, hb', hub⟩
              · exact List.mem_cons_self _ _
              · exact List.mem_cons_of_mem _ (hmonoB.2.1 _ (hdsub d hd u hud))
              · exact List.mem_cons_of_mem _ (hbsub b hb' u hub)
            refine ⟨⟨?_, ?_⟩, ?_, hsubs, ?_⟩
            · rw [List.nodup_append]
              refine ⟨hnd₂, List.nodup_singleton _, ?_⟩
              intro i hi hi'
              rcases List.mem_singleton.mp hi' with rfl
              exact hnotlog hi
            · intro i hi
              rcases List.mem_append.mp hi with hi' | hi'
              · exact List.mem_cons_of_mem _ (hlc₂ i hi')
              · rcases List.mem_singleton.mp hi' with rfl
                exact List.mem_cons_self _ _
            · intro t ht hmem u hu
              rcases List.mem_cons.mp hmem with heq | hmem'
              · have ht2 : t = Step.mk n tr se ca deps base := hinj t ht _ hs heq
                subst ht2
                exact hsubs u hu
              · exact List.mem_cons_of_mem _ (hcl₂ t ht hmem' u hu)
            · intro i hi
              rcases List.mem_append.mp hi with hi' | hi'
              · rcases horigB i hi' with h1 | ⟨b, hb', u, hu, hui⟩
                · rcases horigL i h1 with h2 | ⟨d, hd, u, hu, hui⟩
                  · exact Or.inl h2
                  · exact Or.inr ⟨u, allSubs_trans _ d (hdmem d hd) u hu, hui⟩
                · exact Or.inr ⟨u, allSubs_trans _ b (hbmem b hb') u hu, hui⟩
              · rcases List.mem_singleton.mp hi' with rfl
                exact Or.inr ⟨Step.mk n tr se ca deps base, self_mem_allSubs _, rfl⟩
          · rw [if_neg hok] at hrun
            exact Except.noConfusion hrun

theorem runList_ok_of_all_ok (ident : Step → String) (ok : String → Bool)
    (l : List Step)
    (hpt : ∀ d ∈ l, ∀ st, ∃ r, runStep ident ok d st = .ok r) :
    ∀ st, ∃ r, runList ident ok l st = .ok r := by
  induction l with
  | nil => intro st; exact ⟨st, runList_nil ident ok st⟩
  | cons d ds ih =>
    intro st
    obtain ⟨st', hst'⟩ := hpt d (by simp) st
    obtain ⟨r, hr⟩ := ih (fun d' hd' => hpt d' (by simp [hd'])) st'
    exact ⟨r, by rw [runList_cons_ok ident ok hst']; exact hr⟩

theorem runStep_ok_of_all_ok (ident : Step → String) (ok : String → Bool) :
    ∀ s, (∀ u ∈ allSubs s, ok (ident u) = true) →
      ∀ st, ∃ r, runStep ident ok s st = .ok r := by
  intro s
  induction s using Step.strongInd with
  | _ n tr se ca deps base ihd ihb =>
    intro hok st
    by_cases hc : ident (Step.mk n tr se ca deps base) ∈ st.committed
    · exact ⟨st, runStep_eq_of_hit ident ok hc⟩
    · obtain ⟨st₁, hdl⟩ := runList_ok_of_all_ok ident ok deps
        (fun d hd => ihd d hd (fun u hu => hok u (by
          rw [mem_allSubs_iff]
          exact Or.inr (Or.inl ⟨d, hd, hu⟩)))) st
      have hbok : ∃ st₂, runBase ident ok base st₁ = .ok st₂ := by
        cases hbc : base with
        | none => exact ⟨st₁, runBase_none ident ok st₁⟩
        | some b =>
          obtain ⟨st₂, h2⟩ := ihb b hbc (fun u hu => hok u (by
            rw [mem_allSubs_iff]
            exact Or.inr (Or.inr ⟨b, hbc, hu⟩))) st₁
          exact ⟨st₂, by rw [runBase_some]; exact h2⟩
      obtain ⟨st₂, hb⟩ := hbok
      refine ⟨⟨ident (Step.mk n tr se ca deps base) :: st₂.committed,
        (ensureTemp (ident (Step.mk n tr se ca deps base)) st₂.temps).erase
          (ident (Step.mk n tr se ca deps base)),
        st₂.log ++ [ident (Step.mk n tr se ca deps base)]⟩, ?_⟩
      rw [runStep_eq_of_miss ident ok hc hdl hb]
      rw [if_pos (hok _ (self_mem_allSubs _))]

/-- C4: on a fresh build root, a full successful run invokes `_run` for each
reachable step identity exactly once: the log of `_run` invocations has no
duplicate identity, and every reachable step's identity is logged exactly
once — later encounters of an identity resolve as cache hits on the
already-committed output directory. -/
theorem run_executes_each_identity_once (ident : Step → String) (ok : String → Bool)
    (s : Step)
    (hinj : ∀ u ∈ allSubs s, ∀ v ∈ allSubs s, ident u = ident v → u = v)
    (hok : ∀ u ∈ allSubs s, ok (ident u) = true) :
    ∃ r, runStep ident ok s ⟨[], [], []⟩ = .ok r
      ∧ r.log.Nodup
      ∧ ∀ t ∈ allSubs s, r.log.count (ident t) = 1 := by
  obtain ⟨r, hr⟩ := runStep_ok_of_all_ok ident ok s hok ⟨[], [], []⟩
  have hinv := runStep_ok_invariants ident ok s hinj s (self_mem_allSubs s) _ r hr
    ⟨List.nodup_nil, by simp⟩ (by intro t ht hmem; simp at hmem)
  obtain ⟨⟨hnd, _⟩, _, hsubs, _⟩ := hinv
  refine ⟨r, hr, hnd, ?_⟩
  intro t ht
  have hcmem := hsubs t ht
  have hmono := runStep_mono ident ok s ⟨[], [], []⟩
  rw [hr, outState_ok] at hmono
  rcases hmono.2.2 _ hcmem with h | ⟨hl, _⟩
  · simp at h
  · exact List.count_eq_one_of_mem hnd hl

theorem allSubs_diamond :
    allSubs diamondC = [diamondC, diamondA, diamondD, diamondB, diamondD] := by
  simp [diamondC, diamondA, diamondB, diamondD, allSubs]

/-- C4 witness: the diamond graph, where `diamondD` is reachable through two
paths; a full run from an empty build root executes each identity once. -/
theorem run_executes_each_identity_once_witness :
    ∃ r, runStep Step.name (fun _ => true) diamondC ⟨[], [], []⟩ = .ok r
      ∧ r.log.Nodup
      ∧ ∀ t ∈ allSubs diamondC, r.log.count (Step.name t) = 1 :=
  run_executes_each_identity_once Step.name (fun _ => true) diamondC
    (by
      rw [allSubs_diamond]
      intro u hu v hv h
      fin_cases hu <;> fin_cases hv <;>
        first
          | rfl
          | simp_all [diamondC, diamondA, diamondB, diamondD, Step.name])
    (fun u _ => rfl)

/-!
## Docker image caching (`DockerImageSpec`, build_step.py lines 390-421,
`ScriptBuildStep._check_for_cached_result`, lines 683-691)

`load_image` first runs `docker images -q <name>` (modelled by membership in
`localImages`) and returns early when the image is present; otherwise it
runs `docker load -i str(self.name)` — the **image name** is passed as the
tar file path.  `save_image` had written the tar to
`<temp output dir>/<id>.tar` (`result_image_path`), so load and save
disagree about where the tar lives.  The functions below return the traces
of docker commands that would be executed.
-/

/-- `DockerImageSpec.load_image`: skip when the image is already present
locally, else `docker load -i <name>` (the name used as the file path). -/
def load_image (localImages : List String) (name : String) : List (List String) :=
  if name ∈ localImages then []
  else [["docker", "load", "-i", name]]

/-- `ScriptBuildStep.result_image_path`:
`self._temp_output_directory / f"{self.id}.tar"`, the path `save_image`
writes the saved image to. -/
def result_image_path (tempOutputDir : String) (stepId : String) : String :=
  tempOutputDir ++ "/" ++ stepId ++ ".tar"

/-- `ScriptBuildStep._check_for_cached_result`: the exists flag of the base
class, plus — when the directory exists, the step runs in docker and is not
a dependency step — the `load_image` call on `self.result_image`, whose
`name` is `self.id`. -/
def script_check_for_cached_result (outputDirExists runsInDocker isDependencyStep : Bool)
    (stepId : String) (localImages : List String) : Bool × List (List String) :=
  (outputDirExists,
    if outputDirExists && (runsInDocker && !isDependencyStep) then
      load_image localImages stepId
    else [])

/-- C5: on a cache hit for a containerized, non-dependency-only step, the
engine does not re-run the container and skips the load when the image
(named exactly the step's identity) is present locally — but when it is
absent, the executed command is `docker load -i <id>`: the bare step id is
used as the tar path, while `save_image` wrote the tar to
`<output dir>/<id>.tar`, so the saved cache tar is never read. -/
theorem script_check_cached_docker_load_bug :
    script_check_for_cached_result true true false "cached_step__0a" ["cached_step__0a"]
      = (true, [])
    ∧ script_check_for_cached_result true true false "cached_step__0a" []
      = (true, [["docker", "load", "-i", "cached_step__0a"]])
    ∧ result_image_path "build/step_outputs/~cached_step__0a" "cached_step__0a"
      = "build/step_outputs/~cached_step__0a/cached_step__0a.tar"
    ∧ "cached_step__0a"
      ≠ result_image_path "build/step_outputs/~cached_step__0a" "cached_step__0a" := by
  refine ⟨?_, ?_, ?_, ?_⟩
  · simp [script_check_for_cached_result, load_image]
  · simp [script_check_for_cached_result, load_image]
  · rfl
  · decide

/-!
## Error enrichment on a failing `_run` (`ScriptBuildStep._run`,
build_step.py lines 546-562)

On an exception the code logs a hint listing the tracked file **globs**
(the patterns, via `self._tracked_file_globs`) and raises
`DeploymentStepError(f"Step has failed. Step name: '{self.id}'.")` — the
raised error carries only the step identity.
-/

/-- The message of the raised `DeploymentStepError`. -/
def step_failed_message (stepId : String) : String :=
  "Step has failed. Step name: " ++ "\u0027" ++ stepId ++ "\u0027."

/-- Python `repr` of a list of strings, as an f-string interpolates it. -/
def pyStrListRepr (globs : List String) : String :=
  "[" ++ String.intercalate ", " (globs.map (fun g => "\u0027" ++ g ++ "\u0027")) ++ "]"

/-- The `logging.error` hint, which mentions the glob patterns. -/
def tracked_globs_hint (clsName : String) (globs : List String) : String :=
  "\u0027" ++ clsName ++ "\u0027 has failed. "
  ++ "HINT: Make sure that you have specified all files. "
  ++ "For now, tracked files are: " ++ pyStrListRepr globs

/-- `ScriptBuildStep._run`: on failure of the script/container command the
hint is logged and `DeploymentStepError` is raised; the result is the
raised message together with the logged lines. -/
def script_run (stepId : String) (clsName : String) (globs : List String)
    (innerOk : Bool) : Except (String × List String) (List String) :=
  if innerOk then .ok []
  else .error (step_failed_message stepId, [tracked_globs_hint clsName globs])

def prefixOf : List Char → List Char → Bool
  | [], _ => true
  | _ :: _, [] => false
  | a :: as, b :: bs => a == b && prefixOf as bs

def infixOf (n : List Char) : List Char → Bool
  | [] => n.isEmpty
  | c :: t => prefixOf n (c :: t) || infixOf n t

/-- Substring test for strings. -/
def strContains (hay needle : String) : Bool := infixOf needle.data hay.data

theorem prefixOf_self_append (n t : List Char) : prefixOf n (n ++ t) = true := by
  induction n with
  | nil => rfl
  | cons a as ih => simp [prefixOf, ih]

theorem infixOf_append (p n s : List Char) : infixOf n (p ++ (n ++ s)) = true := by
  induction p with
  | nil =>
    rw [List.nil_append]
    cases n with
    | nil =>
      cases s with
      | nil => rfl
      | cons c t => rfl
    | cons c cs =>
      have h : infixOf (c :: cs) ((c :: cs) ++ s)
          = (prefixOf (c :: cs) ((c :: cs) ++ s) || infixOf (c :: cs) (cs ++ s)) := rfl
      rw [h, prefixOf_self_append]
      rfl
  | cons a p ih =>
    have h : infixOf n ((a :: p) ++ (n ++ s))
        = (prefixOf n ((a :: p) ++ (n ++ s)) || infixOf n (p ++ (n ++ s))) := rfl
    rw [h, ih]
    simp

theorem strContains_append (p m s : String) : strContains (p ++ m ++ s) m = true := by
  unfold strContains
  have h : (p ++ m ++ s).data = p.data ++ (m.data ++ s.data) := by
    rw [str_data_append, str_data_append, List.append_assoc]
  rw [h]
  exact infixOf_append p.data m.data s.data

/-- C6 counterexample: for a concrete failing step whose (resolved) tracked
file is `agent_build/x.txt`, the raised error is exactly
`Step has failed. Step name: 'env_build__0f'.` — it does not mention the
resolved tracked file (no file path at all); only the glob-pattern hint
goes to the log. -/
theorem script_run_error_lacks_resolved_files :
    script_run "env_build__0f" "ScriptBuildStep" ["agent_build/x*"] false
      = .error (step_failed_message "env_build__0f",
          [tracked_globs_hint "ScriptBuildStep" ["agent_build/x*"]])
    ∧ strContains (step_failed_message "env_build__0f") "agent_build/x.txt" = false
    ∧ strContains (step_failed_message "env_build__0f") "/" = false := by
  refine ⟨rfl, ?_, ?_⟩
  · decide
  · decide

/-- C6 amended: the propagated `DeploymentStepError` is enriched with the
failing step's identity only (the identity is a substring of the raised
message), while the tracked-file glob patterns — not the resolved file
paths — are emitted to the log and are not attached to the raised error. -/
theorem script_run_error_content (stepId clsName : String) (globs : List String) :
    script_run stepId clsName globs false
      = .error (step_failed_message stepId, [tracked_globs_hint clsName globs])
    ∧ strContains (step_failed_message stepId) stepId = true := by
  refine ⟨rfl, ?_⟩
  unfold step_failed_message
  exact strContains_append ("Step has failed. Step name: " ++ "\u0027") stepId "\u0027."

/-!
## Command line resolution (`ScriptBuildStep._get_command_line_args`,
build_step.py lines 574-617)

The dependency output arguments are computed first; then the interpreter is
chosen by the script suffix: `.ps1` → `powershell`, `.sh` → `/bin/bash`,
`.py` → `python3`.  For any other suffix no branch assigns
`full_command_args`, so the following `full_command_args.extend(...)` hits
an unbound local variable — command resolution fails before any command is
built; this is modelled by the `Option` result being `none`.
-/

/-- `pathlib` suffix of a file name: the part from the last dot, provided
the dot is not the leading character. -/
def fileSuffix (s : String) : String :=
  let parts := s.splitOn "."
  if parts.length ≤ 1 then ""
  else if String.intercalate "." parts.dropLast = "" then ""
  else "." ++ parts.getLastD ""

def interpreterFor (sfx : String) : Option (List String) :=
  if sfx = ".ps1" then some ["powershell"]
  else if sfx = ".sh" then some ["/bin/bash"]
  else if sfx = ".py" then some ["python3"]
  else none

/-- `_get_command_line_args`: dependency outputs (in-docker mount path by
directory name, or the local output directory), then interpreter dispatch
on the script suffix, then `[interpreter, rel_script_path, *outputs]`. -/
def get_command_line_args (runsInDocker : Bool)
    (deps : List (String × String)) (relScriptPath : FPath) : Option (List String) :=
  let required_steps_outputs :=
    deps.map (fun d =>
      if runsInDocker then "/tmp/step/dependencies/" ++ d.1 else d.2)
  match interpreterFor (fileSuffix (relScriptPath.getLastD "")) with
  | none => none
  | some interp => some (interp ++ [pathStr relScriptPath] ++ required_steps_outputs)

/-- C10: command resolution succeeds exactly for the suffixes `.ps1`, `.sh`
and `.py`; for every other script suffix it fails (the interpreter variable
is never assigned) before any command is built. -/
theorem get_command_line_args_none_iff (runsInDocker : Bool)
    (deps : List (String × String)) (relScriptPath : FPath) :
    get_command_line_args runsInDocker deps relScriptPath = none
      ↔ fileSuffix (relScriptPath.getLastD "") ∉ ([".ps1", ".sh", ".py"] : List String) := by
  unfold get_command_line_args interpreterFor
  set sfx := fileSuffix (relScriptPath.getLastD "") with hsfx
  by_cases h1 : sfx = ".ps1"
  · rw [if_pos h1]
    dsimp only
    simp [h1]
  · rw [if_neg h1]
    by_cases h2 : sfx = ".sh"
    · rw [if_pos h2]
      dsimp only
      simp [h2]
    · rw [if_neg h2]
      by_cases h3 : sfx = ".py"
      · rw [if_pos h3]
        dsimp only
        simp [h3]
      · rw [if_neg h3]
        dsimp only
        simp [h1, h2, h3]

/-!
## `tracked_file_paths` (build_step.py lines 147-206)

The filesystem is a list of entries (relative path, is-directory flag);
glob resolution (`SOURCE_ROOT.glob`) and the right-anchored
`PurePath.match` used for `.dockerignore` lines are abstract matchers.
Python's sets become order-insensitive list operations (`dedup`, filters,
and the final `sorted`), which is what makes the result independent of the
filesystem iteration order.
-/

structure FSEntry where
  path : FPath
  isDir : Bool
deriving DecidableEq

def isDirB (fs : List FSEntry) (p : FPath) : Bool :=
  fs.any (fun e => e.path == p && e.isDir)

def isFileB (fs : List FSEntry) (p : FPath) : Bool :=
  fs.any (fun e => e.path == p && !e.isDir)

def leadsList : FPath → FPath → Bool
  | [], _ => true
  | _ :: _, [] => false
  | a :: as, b :: bs => a == b && leadsList as bs

/-- `q` is a strict descendant path of the directory `p` (what
`p.glob("**/*")` enumerates). -/
def underDir (p q : FPath) : Bool := leadsList p q && decide (p.length < q.length)

def descendants (fs : List FSEntry) (p : FPath) : List FPath :=
  (fs.filter (fun e => underDir p e.path)).map (fun e => e.path)

/-- A `.dockerignore` line: a leading path separator is stripped
(`glob.relative_to("/")`). -/
def normLine (l : String) : String :=
  if l.startsWith "/" then ⟨l.data.dropWhile (fun c => c == '/')⟩ else l

/-- The union of the glob resolutions (a Python set: deduplicated). -/
def found_paths {γ : Type} (matchGlob : γ → FPath → Bool) (globs : List γ)
    (fs : List FSEntry) : List FPath :=
  ((fs.filter (fun e => globs.any (fun g => matchGlob g e.path))).map
    (fun e => e.path)).dedup

/-- Found paths matched by some non-empty `.dockerignore` line. -/
def excluded_base (matchRight : FPath → String → Bool) (lines : List String)
    (found : List FPath) : List FPath :=
  found.filter (fun p => lines.any (fun l => decide (l ≠ "") && matchRight p (normLine l)))

/-- The excluded paths together with all descendants of excluded
directories. -/
def excluded_all (matchRight : FPath → String → Bool) (lines : List String)
    (fs : List FSEntry) (found : List FPath) : List FPath :=
  excluded_base matchRight lines found
  ++ (((excluded_base matchRight lines found).filter (fun p => isDirB fs p)).map
      (descendants fs)).flatten

/-- `BuildStep.tracked_file_paths`: resolve the globs, subtract the ignored
paths (and the descendants of ignored directories), drop directories,
append the `.dockerignore` file itself, and sort. -/
def tracked_file_paths {γ : Type} (matchGlob : γ → FPath → Bool)
    (matchRight : FPath → String → Bool) (globs : List γ) (lines : List String)
    (fs : List FSEntry) : List FPath :=
  sortPaths
    ((((found_paths matchGlob globs fs).filter
        (fun p => decide (p ∉ excluded_all matchRight lines fs
          (found_paths matchGlob globs fs)))).filter
      (fun p => !isDirB fs p))
    ++ [[".dockerignore"]])

theorem perm_any_eq {α : Type} {l₁ l₂ : List α} (h : List.Perm l₁ l₂) (f : α → Bool) :
    l₁.any f = l₂.any f := by
  cases h1 : l₁.any f <;> cases h2 : l₂.any f
  · rfl
  · rw [List.any_eq_true] at h2
    obtain ⟨a, ha, hfa⟩ := h2
    have : l₁.any f = true := List.any_eq_true.mpr ⟨a, h.mem_iff.mpr ha, hfa⟩
    rw [h1] at this
    exact Bool.noConfusion this
  · rw [List.any_eq_true] at h1
    obtain ⟨a, ha, hfa⟩ := h1
    have : l₂.any f = true := List.any_eq_true.mpr ⟨a, h.mem_iff.mp ha, hfa⟩
    rw [h2] at this
    exact Bool.noConfusion this
  · rfl

theorem isDirB_perm {fs fs' : List FSEntry} (h : List.Perm fs fs') (p : FPath) :
    isDirB fs p = isDirB fs' p := perm_any_eq h _

theorem mem_descendants {fs : List FSEntry} {q p : FPath} :
    p ∈ descendants fs q ↔ ∃ e ∈ fs, underDir q e.path = true ∧ e.path = p := by
  unfold descendants
  simp only [List.mem_map, List.mem_filter]
  constructor
  · rintro ⟨e, ⟨he, hu⟩, hp⟩
    exact ⟨e, he, hu, hp⟩
  · rintro ⟨e, he, hu, hp⟩
    exact ⟨e, ⟨he, hu⟩, hp⟩

theorem mem_descendants_perm {fs fs' : List FSEntry} (h : List.Perm fs fs')
    (q p : FPath) : p ∈ descendants fs q ↔ p ∈ descendants fs' q := by
  rw [mem_descendants, mem_descendants]
  constructor
  · rintro ⟨e, he, hu, hp⟩
    exact ⟨e, h.mem_iff.mp he, hu, hp⟩
  · rintro ⟨e, he, hu, hp⟩
    exact ⟨e, h.mem_iff.mpr he, hu, hp⟩

theorem mem_excluded_all {matchRight : FPath → String → Bool} {lines : List String}
    {fs : List FSEntry} {found : List FPath} {p : FPath} :
    p ∈ excluded_all matchRight lines fs found
      ↔ p ∈ excluded_base matchRight lines found
        ∨ ∃ q ∈ excluded_base matchRight lines found,
            isDirB fs q = true ∧ p ∈ descendants fs q := by
  unfold excluded_all
  simp only [List.mem_append, List.mem_flatten, List.mem_map, List.mem_filter]
  constructor
  · rintro (h | ⟨l, ⟨q, ⟨hq, hdir⟩, hl⟩, hp⟩)
    · exact Or.inl h
    · exact Or.inr ⟨q, hq, hdir, hl ▸ hp⟩
  · rintro (h | ⟨q, hq, hdir, hp⟩)
    · exact Or.inl h
    · exact Or.inr ⟨descendants fs q, ⟨q, ⟨hq, hdir⟩, rfl⟩, hp⟩

theorem found_paths_perm {γ : Type} (matchGlob : γ → FPath → Bool) (globs : List γ)
    {fs fs' : List FSEntry} (h : List.Perm fs fs') :
    List.Perm (found_paths matchGlob globs fs) (found_paths matchGlob globs fs') := by
  unfold found_paths
  exact ((h.filter _).map _).dedup

theorem mem_excluded_all_perm {γ : Type} (matchGlob : γ → FPath → Bool)
    (matchRight : FPath → String → Bool) (globs : List γ) (lines : List String)
    {fs fs' : List FSEntry} (h : List.Perm fs fs') (p : FPath) :
    p ∈ excluded_all matchRight lines fs (found_paths matchGlob globs fs)
      ↔ p ∈ excluded_all matchRight lines fs' (found_paths matchGlob globs fs') := by
  have hf := found_paths_perm matchGlob globs h
  have hbase : ∀ x, x ∈ excluded_base matchRight lines (found_paths matchGlob globs fs)
      ↔ x ∈ excluded_base matchRight lines (found_paths matchGlob globs fs') := by
    intro x
    unfold excluded_base
    rw [List.mem_filter, List.mem_filter, hf.mem_iff]
  rw [mem_excluded_all, mem_excluded_all]
  constructor
  · rintro (hb | ⟨q, hq, hdir, hd⟩)
    · exact Or.inl ((hbase p).mp hb)
    · exact Or.inr ⟨q, (hbase q).mp hq, (isDirB_perm h q) ▸ hdir,
        (mem_descendants_perm h q p).mp hd⟩
  · rintro (hb | ⟨q, hq, hdir, hd⟩)
    · exact Or.inl ((hbase p).mpr hb)
    · exact Or.inr ⟨q, (hbase q).mpr hq, (isDirB_perm h q) ▸ hdir,
        (mem_descendants_perm h q p).mpr hd⟩

/-- C7: the tracked file list contains only regular files of the tree,
always contains the `.dockerignore` file itself, is sorted in the
lexicographic path order, and is byte-identical for any permutation of the
filesystem enumeration. -/
theorem tracked_file_paths_spec {γ : Type} (matchGlob : γ → FPath → Bool)
    (matchRight : FPath → String → Bool) (globs : List γ) (lines : List String)
    (fs fs' : List FSEntry)
    (hdi : isFileB fs [".dockerignore"] = true)
    (hperm : List.Perm fs fs') :
    (∀ p ∈ tracked_file_paths matchGlob matchRight globs lines fs, isFileB fs p = true)
    ∧ [".dockerignore"] ∈ tracked_file_paths matchGlob matchRight globs lines fs
    ∧ List.Sorted FPathLeR (tracked_file_paths matchGlob matchRight globs lines fs)
    ∧ tracked_file_paths matchGlob matchRight globs lines fs
      = tracked_file_paths matchGlob matchRight globs lines fs' := by
  refine ⟨?_, ?_, ?_, ?_⟩
  · intro p hp
    have hp2 := (sortPaths_perm _).mem_iff.mp hp
    rcases List.mem_append.mp hp2 with hp3 | hp3
    · rw [List.mem_filter] at hp3
      obtain ⟨hp4, hnd⟩ := hp3
      rw [List.mem_filter] at hp4
      obtain ⟨hp5, _⟩ := hp4
      unfold found_paths at hp5
      rw [List.mem_dedup, List.mem_map] at hp5
      obtain ⟨e, he, hep⟩ := hp5
      rw [List.mem_filter] at he
      unfold isFileB
      rw [List.any_eq_true]
      refine ⟨e, he.1, ?_⟩
      have hdir : e.isDir = false := by
        by_contra hcon
        rw [Bool.not_eq_false] at hcon
        have : isDirB fs p = true := by
          unfold isDirB
          rw [List.any_eq_true]
          exact ⟨e, he.1, by simp [hep, hcon]⟩
        rw [this] at hnd
        exact Bool.noConfusion hnd
      simp [hep, hdir]
    · rcases List.mem_singleton.mp hp3 with rfl
      exact hdi
  · exact (sortPaths_perm _).mem_iff.mpr
      (List.mem_append_right _ (List.mem_singleton_self _))
  · exact sortPaths_sorted _
  · unfold tracked_file_paths
    apply sortPaths_eq_of_perm
    apply List.Perm.append_right
    have hf := found_paths_perm matchGlob globs hperm
    have hcongr1 : ∀ p ∈ found_paths matchGlob globs fs',
        (decide (p ∉ excluded_all matchRight lines fs (found_paths matchGlob globs fs)))
        = (decide (p ∉ excluded_all matchRight lines fs' (found_paths matchGlob globs fs'))) := by
      intro p _
      apply decide_eq_decide.mpr
      rw [mem_excluded_all_perm matchGlob matchRight globs lines hperm p]
    have h1 : List.Perm
        (((found_paths matchGlob globs fs).filter
          (fun p => decide (p ∉ excluded_all matchRight lines fs
            (found_paths matchGlob globs fs)))).filter (fun p => !isDirB fs p))
        (((found_paths matchGlob globs fs').filter
          (fun p => decide (p ∉ excluded_all matchRight lines fs
            (found_paths matchGlob globs fs)))).filter (fun p => !isDirB fs p)) :=
      (hf.filter _).filter _
    have h2 : (found_paths matchGlob globs fs').filter
          (fun p => decide (p ∉ excluded_all matchRight lines fs
            (found_paths matchGlob globs fs)))
        = (found_paths matchGlob globs fs').filter
          (fun p => decide (p ∉ excluded_all matchRight lines fs'
            (found_paths matchGlob globs fs'))) :=
      List.filter_congr hcongr1
    rw [h2] at h1
    have h3 : ((found_paths matchGlob globs fs').filter
          (fun p => decide (p ∉ excluded_all matchRight lines fs'
            (found_paths matchGlob globs fs')))).filter (fun p => !isDirB fs p)
        = ((found_paths matchGlob globs fs').filter
          (fun p => decide (p ∉ excluded_all matchRight lines fs'
            (found_paths matchGlob globs fs')))).filter (fun p => !isDirB fs' p) :=
      List.filter_congr (fun p _ => by rw [isDirB_perm hperm p])
    rw [h3] at h1
    exact h1

def fsW : List FSEntry := [⟨[".dockerignore"], false⟩, ⟨["a.txt"], false⟩, ⟨["d"], true⟩]

def fsW2 : List FSEntry := [⟨["a.txt"], false⟩, ⟨[".dockerignore"], false⟩, ⟨["d"], true⟩]

/-- C7 witness: a three-entry tree enumerated in two different orders. -/
theorem tracked_file_paths_spec_witness :
    (∀ p ∈ tracked_file_paths (fun (_ : Unit) (_ : FPath) => true)
        (fun _ _ => false) [()] [] fsW, isFileB fsW p = true)
    ∧ [".dockerignore"] ∈ tracked_file_paths (fun (_ : Unit) (_ : FPath) => true)
        (fun _ _ => false) [()] [] fsW
    ∧ List.Sorted FPathLeR (tracked_file_paths (fun (_ : Unit) (_ : FPath) => true)
        (fun _ _ => false) [()] [] fsW)
    ∧ tracked_file_paths (fun (_ : Unit) (_ : FPath) => true)
        (fun _ _ => false) [()] [] fsW
      = tracked_file_paths (fun (_ : Unit) (_ : FPath) => true)
        (fun _ _ => false) [()] [] fsW2 :=
  tracked_file_paths_spec (fun (_ : Unit) (_ : FPath) => true) (fun _ _ => false)
    [()] [] fsW fsW2 (by decide) (by decide)
